import Mathlib

/-!
Verification of the cmsgpack MessagePack codec specification.

The codec core (`cmsgpack/cmsgpack.c`) is not shipped in this source tree;
only its Python tests and benchmarks are.  The definitions below are
therefore modelled from the specification's wire-format and dispatch rules,
with the error behaviours that the repository's own tests pin down taking
precedence where the two disagree (each such point is noted on the
definition it concerns).

Bytes are modelled as natural numbers (an encoder only ever emits values
below 256); buffers are lists of bytes; machine integers are `Int`/`Nat`
with explicit two's-complement arithmetic; IEEE-754 doubles are carried as
their 64-bit big-endian bit patterns.
-/

namespace Cmsgpack

set_option maxRecDepth 8000

/-- Error kinds of the codec, mirroring the Python exception classes the
spec's error taxonomy (§7) names: TypeError, ValueError, OverflowError,
RecursionError. -/
inductive Err where
  | typeError
  | valueError
  | overflowError
  | recursionError
deriving DecidableEq, Repr

/-- Host value graph, §3: the closed kind set Null, Bool, integer
(UInt/NInt merged into one mathematical integer), float (held as its
IEEE-754 binary64 bit pattern), Str (UTF-8 bytes), Bin, Array, Map. -/
inductive Value where
  | nil
  | bool (b : Bool)
  | int (v : ℤ)
  | float (bits : ℕ)
  | str (s : List ℕ)
  | bin (b : List ℕ)
  | arr (items : List Value)
  | map (pairs : List (Value × Value))

/-- Big-endian byte emission: `beBytes w n` is the `w`-byte big-endian
representation of `n % 2^(8*w)` (§4.1: all multi-byte fields big-endian). -/
def beBytes : ℕ → ℕ → List ℕ
  | 0, _ => []
  | w + 1, n => beBytes w (n / 256) ++ [n % 256]

/-- Big-endian byte reading, the inverse of `beBytes`. -/
def fromBE (bs : List ℕ) : ℕ := bs.foldl (fun acc b => acc * 256 + b) 0

/-- Default recursion limit, §3: "Recursion depth is bounded by a
configurable limit (default 1024)". -/
def maxDepth : ℕ := 1024

/-- Modelled from the spec (§4.3, Integer): positive fixint for 0..127,
negative fixint for -32..-1, otherwise the narrowest signed width for
negative values and the narrowest unsigned width for non-negative values;
outside [-2^63, 2^64-1] fails with OverflowError. -/
def encInt (v : ℤ) : Except Err (List ℕ) :=
  if 0 ≤ v ∧ v ≤ 127 then .ok [v.toNat]
  else if -32 ≤ v ∧ v < 0 then .ok [(v + 256).toNat]
  else if v < 0 then
    if -128 ≤ v then .ok (0xd0 :: beBytes 1 (v + 2 ^ 8).toNat)
    else if -(2 ^ 15) ≤ v then .ok (0xd1 :: beBytes 2 (v + 2 ^ 16).toNat)
    else if -(2 ^ 31) ≤ v then .ok (0xd2 :: beBytes 4 (v + 2 ^ 32).toNat)
    else if -(2 ^ 63) ≤ v then .ok (0xd3 :: beBytes 8 (v + 2 ^ 64).toNat)
    else .error .overflowError
  else
    if v ≤ 2 ^ 8 - 1 then .ok (0xcc :: beBytes 1 v.toNat)
    else if v ≤ 2 ^ 16 - 1 then .ok (0xcd :: beBytes 2 v.toNat)
    else if v ≤ 2 ^ 32 - 1 then .ok (0xce :: beBytes 4 v.toNat)
    else if v ≤ 2 ^ 64 - 1 then .ok (0xcf :: beBytes 8 v.toNat)
    else .error .overflowError

/-- Modelled from the spec (§4.3, Str): fixstr up to 31 bytes, then
str8/str16/str32 by UTF-8 byte length; beyond 2^32-1 OverflowError. -/
def strHeader (L : ℕ) : Except Err (List ℕ) :=
  if L ≤ 31 then .ok [0xa0 + L]
  else if L ≤ 2 ^ 8 - 1 then .ok [0xd9, L]
  else if L ≤ 2 ^ 16 - 1 then .ok (0xda :: beBytes 2 L)
  else if L ≤ 2 ^ 32 - 1 then .ok (0xdb :: beBytes 4 L)
  else .error .overflowError

/-- Modelled from the spec (§4.3, Bin): bin8/bin16/bin32 by byte length. -/
def binHeader (L : ℕ) : Except Err (List ℕ) :=
  if L ≤ 2 ^ 8 - 1 then .ok [0xc4, L]
  else if L ≤ 2 ^ 16 - 1 then .ok (0xc5 :: beBytes 2 L)
  else if L ≤ 2 ^ 32 - 1 then .ok (0xc6 :: beBytes 4 L)
  else .error .overflowError

/-- Modelled from the spec (§4.3, Array): fixarray up to 15 elements,
then array16/array32 by count. -/
def arrHeader (L : ℕ) : Except Err (List ℕ) :=
  if L ≤ 15 then .ok [0x90 + L]
  else if L ≤ 2 ^ 16 - 1 then .ok (0xdc :: beBytes 2 L)
  else if L ≤ 2 ^ 32 - 1 then .ok (0xdd :: beBytes 4 L)
  else .error .overflowError

/-- Modelled from the spec (§4.3, Map): fixmap up to 15 pairs, then
map16/map32 by pair count. -/
def mapHeader (L : ℕ) : Except Err (List ℕ) :=
  if L ≤ 15 then .ok [0x80 + L]
  else if L ≤ 2 ^ 16 - 1 then .ok (0xde :: beBytes 2 L)
  else if L ≤ 2 ^ 32 - 1 then .ok (0xdf :: beBytes 4 L)
  else .error .overflowError

/-- Continuation-byte test of the UTF-8 validator (bytes 0x80..0xbf). -/
def utf8Cont (b : ℕ) : Bool := decide (0x80 ≤ b ∧ b ≤ 0xbf)

/-- Modelled from the spec (§4.4, Str): the standard UTF-8 validity check
(shortest-form encodings only, surrogates excluded, maximum U+10FFFF). -/
def utf8Valid : List ℕ → Bool
  | [] => true
  | b :: rest =>
    if b ≤ 0x7f then utf8Valid rest
    else if b < 0xc2 then false
    else if b ≤ 0xdf then
      match rest with
      | c1 :: r => utf8Cont c1 && utf8Valid r
      | [] => false
    else if b ≤ 0xef then
      match rest with
      | c1 :: c2 :: r =>
        (if b = 0xe0 then decide (0xa0 ≤ c1 ∧ c1 ≤ 0xbf)
         else if b = 0xed then decide (0x80 ≤ c1 ∧ c1 ≤ 0x9f)
         else utf8Cont c1) && utf8Cont c2 && utf8Valid r
      | _ => false
    else if b ≤ 0xf4 then
      match rest with
      | c1 :: c2 :: c3 :: r =>
        (if b = 0xf0 then decide (0x90 ≤ c1 ∧ c1 ≤ 0xbf)
         else if b = 0xf4 then decide (0x80 ≤ c1 ∧ c1 ≤ 0x8f)
         else utf8Cont c1) && utf8Cont c2 && utf8Cont c3 && utf8Valid r
      | _ => false
    else false

/-- Kind test used by the `str_keys` option. -/
def isStr : Value → Bool
  | .str _ => true
  | _ => false

/-- Sequential encoding of array elements (§4.3: recurse on each element,
output produced strictly left-to-right). -/
def encSeq (f : Value → Except Err (List ℕ)) : List Value → Except Err (List ℕ)
  | [] => .ok []
  | v :: rest => do
    let b ← f v
    let bs ← encSeq f rest
    .ok (b ++ bs)

/-- Sequential encoding of map pairs, key then value (§4.3); with
`str_keys` a non-string key fails with TypeError. -/
def encPairs (sk : Bool) (f : Value → Except Err (List ℕ)) :
    List (Value × Value) → Except Err (List ℕ)
  | [] => .ok []
  | (k, v) :: rest =>
    if sk && !isStr k then .error .typeError
    else do
      let bk ← f k
      let bv ← f v
      let bs ← encPairs sk f rest
      .ok (bk ++ bv ++ bs)

/-- Modelled from the spec (§4.3, encoder core): value-kind dispatch with
minimal tag selection.  The first argument is the remaining recursion
depth (spec: a container at depth ≥ max_depth fails with RecursionError);
floats are emitted as F64 unconditionally. -/
def encodeVal (sk : Bool) : ℕ → Value → Except Err (List ℕ)
  | _, .nil => .ok [0xc0]
  | _, .bool false => .ok [0xc2]
  | _, .bool true => .ok [0xc3]
  | _, .int v => encInt v
  | _, .float bits => .ok (0xcb :: beBytes 8 bits)
  | _, .str s => do
    let h ← strHeader s.length
    .ok (h ++ s)
  | _, .bin b => do
    let h ← binHeader b.length
    .ok (h ++ b)
  | d, .arr items =>
    match d with
    | 0 => .error .recursionError
    | d' + 1 => do
      let h ← arrHeader items.length
      let body ← encSeq (fun v => encodeVal sk d' v) items
      .ok (h ++ body)
  | d, .map pairs =>
    match d with
    | 0 => .error .recursionError
    | d' + 1 => do
      let h ← mapHeader pairs.length
      let body ← encPairs sk (fun v => encodeVal sk d' v) pairs
      .ok (h ++ body)

/-- One-shot encode, §4.3 / §6: `encode(value)` with the default depth
limit of 1024. -/
def encodeFull (sk : Bool) (v : Value) : Except Err (List ℕ) :=
  encodeVal sk maxDepth v

/-- Checked read of `n` bytes from the input cursor; shortage fails with
ValueError("unexpected end of input") (§4.4). -/
def readN (n : ℕ) (bs : List ℕ) : Except Err (List ℕ × List ℕ) :=
  if n ≤ bs.length then .ok (bs.take n, bs.drop n) else .error .valueError

/-- Two's-complement reading of a `w`-byte big-endian unsigned value `n`
as a signed integer (§4.4, Int8/16/32/64 decode). -/
def decSigned (w : ℕ) (n : ℕ) : ℤ :=
  if n < 2 ^ (8 * w - 1) then (n : ℤ) else (n : ℤ) - 2 ^ (8 * w)

/-- Ext id byte read as a signed 8-bit integer (§3: tag byte in
[-128, 127]). -/
def extIdOfByte (b : ℕ) : ℤ := if b < 128 then (b : ℤ) else (b : ℤ) - 256

/-- Extension registry as consulted during decode: the `by_ext_id` map
from ext id to decoder function (§3); the decoder function may itself
fail, so it returns in `Except`. -/
def Reg : Type := ℤ → Option (List ℕ → Except Err Value)

/-- Registry with no decoders registered (the process-wide default
registry after `clear()`, or a fresh `Extensions()`). -/
def emptyReg : Reg := fun _ => none

/-- Modelled from the tests: decoding an Ext payload whose ext id has no
registered decoder fails with TypeError (src/tests/extensions.py lines
126-132 and 143-147 expect TypeError here; the spec's §4.4 instead says
ValueError, and the discrepancy is what claim C4 is about). -/
def extDecode (reg : Reg) (i : ℤ) (payload : List ℕ) : Except Err Value :=
  match reg i with
  | none => .error .typeError
  | some f => f payload

/-- Conversion of an IEEE-754 binary32 bit pattern to the binary64 bit
pattern of the same real value (§4.4: F32 decode must be supported and
produce a host numeric value, which in the host is a double). -/
def f32ToF64 (n : ℕ) : ℕ :=
  let s := n / 2 ^ 31
  let e := n / 2 ^ 23 % 2 ^ 8
  let m := n % 2 ^ 23
  if e = 255 then s * 2 ^ 63 + 2047 * 2 ^ 52 + m * 2 ^ 29
  else if e = 0 then
    if m = 0 then s * 2 ^ 63
    else
      let k := Nat.log2 m
      s * 2 ^ 63 + (k + 874) * 2 ^ 52 + (m - 2 ^ k) * 2 ^ (52 - k)
  else s * 2 ^ 63 + (e + 896) * 2 ^ 52 + m * 2 ^ 29

/-- Sequential decoding of `n` array elements with the element decoder
`f`, threading the input cursor (§4.4, Array). -/
def decItems (f : List ℕ → Except Err (Value × List ℕ)) :
    ℕ → List ℕ → Except Err (List Value × List ℕ)
  | 0, bs => .ok ([], bs)
  | n + 1, bs => do
    let (v, r) ← f bs
    let (vs, r2) ← decItems f n r
    .ok (v :: vs, r2)

/-- Sequential decoding of `n` map pairs; with `str_keys` a key that
decodes to a non-string fails with TypeError (§4.4, Map). -/
def decPairs (sk : Bool) (f : List ℕ → Except Err (Value × List ℕ)) :
    ℕ → List ℕ → Except Err (List (Value × Value) × List ℕ)
  | 0, bs => .ok ([], bs)
  | n + 1, bs => do
    let (k, r) ← f bs
    if sk && !isStr k then .error .typeError
    else do
      let (v, r2) ← f r
      let (ps, r3) ← decPairs sk f n r2
      .ok ((k, v) :: ps, r3)

/-- Reading of a string payload of length `L`: UTF-8 is validated,
failure is ValueError (§4.4, Str). -/
def decStrPayload (L : ℕ) (bs : List ℕ) : Except Err (Value × List ℕ) := do
  let (s, r) ← readN L bs
  if utf8Valid s then .ok (.str s, r) else .error .valueError

/-- Reading of an Ext body: the signed id byte, then `L` payload bytes,
then the registry lookup (§4.4, Ext tags). -/
def decExtPayload (reg : Reg) (L : ℕ) (bs : List ℕ) :
    Except Err (Value × List ℕ) := do
  let (ib, r) ← readN 1 bs
  let (payload, r2) ← readN L r
  let v ← extDecode reg (extIdOfByte (fromBE ib)) payload
  .ok (v, r2)

/-- Modelled from the spec (§4.1 tag table and §4.4 decoder core): the
fixed-tag part of the dispatch, for tags 0xc0..0xdf: scalars, Bin, Str,
Ext, and the non-fix container headers.  `sub` is the decoder available
for container elements: `none` when no recursion depth is left.  The
reserved tag 0xc1 and any other tag not in the table fail with
ValueError. -/
def decodeFixed (reg : Reg) (sk : Bool)
    (sub : Option (List ℕ → Except Err (Value × List ℕ)))
    (t : ℕ) (bs : List ℕ) : Except Err (Value × List ℕ) :=
  match t with
  | 0xc0 => .ok (.nil, bs)
  | 0xc2 => .ok (.bool false, bs)
  | 0xc3 => .ok (.bool true, bs)
  | 0xc4 => do
    let (lb, r) ← readN 1 bs
    let (p, r2) ← readN (fromBE lb) r
    .ok (.bin p, r2)
  | 0xc5 => do
    let (lb, r) ← readN 2 bs
    let (p, r2) ← readN (fromBE lb) r
    .ok (.bin p, r2)
  | 0xc6 => do
    let (lb, r) ← readN 4 bs
    let (p, r2) ← readN (fromBE lb) r
    .ok (.bin p, r2)
  | 0xc7 => do
    let (lb, r) ← readN 1 bs
    decExtPayload reg (fromBE lb) r
  | 0xc8 => do
    let (lb, r) ← readN 2 bs
    decExtPayload reg (fromBE lb) r
  | 0xc9 => do
    let (lb, r) ← readN 4 bs
    decExtPayload reg (fromBE lb) r
  | 0xca => do
    let (b4, r) ← readN 4 bs
    .ok (.float (f32ToF64 (fromBE b4)), r)
  | 0xcb => do
    let (b8, r) ← readN 8 bs
    .ok (.float (fromBE b8), r)
  | 0xcc => do
    let (b1, r) ← readN 1 bs
    .ok (.int (fromBE b1), r)
  | 0xcd => do
    let (b2, r) ← readN 2 bs
    .ok (.int (fromBE b2), r)
  | 0xce => do
    let (b4, r) ← readN 4 bs
    .ok (.int (fromBE b4), r)
  | 0xcf => do
    let (b8, r) ← readN 8 bs
    .ok (.int (fromBE b8), r)
  | 0xd0 => do
    let (b1, r) ← readN 1 bs
    .ok (.int (decSigned 1 (fromBE b1)), r)
  | 0xd1 => do
    let (b2, r) ← readN 2 bs
    .ok (.int (decSigned 2 (fromBE b2)), r)
  | 0xd2 => do
    let (b4, r) ← readN 4 bs
    .ok (.int (decSigned 4 (fromBE b4)), r)
  | 0xd3 => do
    let (b8, r) ← readN 8 bs
    .ok (.int (decSigned 8 (fromBE b8)), r)
  | 0xd4 => decExtPayload reg 1 bs
  | 0xd5 => decExtPayload reg 2 bs
  | 0xd6 => decExtPayload reg 4 bs
  | 0xd7 => decExtPayload reg 8 bs
  | 0xd8 => decExtPayload reg 16 bs
  | 0xd9 => do
    let (lb, r) ← readN 1 bs
    decStrPayload (fromBE lb) r
  | 0xda => do
    let (lb, r) ← readN 2 bs
    decStrPayload (fromBE lb) r
  | 0xdb => do
    let (lb, r) ← readN 4 bs
    decStrPayload (fromBE lb) r
  | 0xdc =>
    match sub with
    | none => .error .valueError
    | some f => do
      let (lb, r) ← readN 2 bs
      let (vs, r2) ← decItems f (fromBE lb) r
      .ok (.arr vs, r2)
  | 0xdd =>
    match sub with
    | none => .error .valueError
    | some f => do
      let (lb, r) ← readN 4 bs
      let (vs, r2) ← decItems f (fromBE lb) r
      .ok (.arr vs, r2)
  | 0xde =>
    match sub with
    | none => .error .valueError
    | some f => do
      let (lb, r) ← readN 2 bs
      let (ps, r2) ← decPairs sk f (fromBE lb) r
      .ok (.map ps, r2)
  | 0xdf =>
    match sub with
    | none => .error .valueError
    | some f => do
      let (lb, r) ← readN 4 bs
      let (ps, r2) ← decPairs sk f (fromBE lb) r
      .ok (.map ps, r2)
  | _ => .error .valueError

/-- Modelled from the spec (§4.1 tag table and §4.4 decoder core): tag
dispatch over one Value.  The fix-range tags are handled inline, the
rest by `decodeFixed`; reading an empty input fails with ValueError
("unexpected end of input"). -/
def decodeOne (reg : Reg) (sk : Bool)
    (sub : Option (List ℕ → Except Err (Value × List ℕ))) :
    List ℕ → Except Err (Value × List ℕ)
  | [] => .error .valueError
  | t :: bs =>
    if t ≤ 0x7f then .ok (.int t, bs)
    else if t ≤ 0x8f then
      match sub with
      | none => .error .valueError
      | some f => do
        let (ps, r) ← decPairs sk f (t - 0x80) bs
        .ok (.map ps, r)
    else if t ≤ 0x9f then
      match sub with
      | none => .error .valueError
      | some f => do
        let (vs, r) ← decItems f (t - 0x90) bs
        .ok (.arr vs, r)
    else if t ≤ 0xbf then decStrPayload (t - 0xa0) bs
    else if 0xe0 ≤ t then .ok (.int ((t : ℤ) - 256), bs)
    else decodeFixed reg sk sub t bs

/-- Decoder with the remaining recursion depth made explicit: a container
met with no depth left fails inside `decodeOne` (§4.4: depth at the
limit is a ValueError). -/
def decodeVal (reg : Reg) (sk : Bool) : ℕ → List ℕ → Except Err (Value × List ℕ)
  | 0, bs => decodeOne reg sk none bs
  | d + 1, bs => decodeOne reg sk (some (fun b => decodeVal reg sk d b)) bs

/-- Modelled from the tests: one-shot `decode` parses exactly one Value
and rejects a buffer with bytes left over as invalid encoded data with
ValueError (src/tests/regular.py line 65 expects `decode(b"\0\0")` to
raise ValueError; the spec's §4.4 instead says trailing bytes are
ignored, and the discrepancy is what claim C3 is about). -/
def decodeFull (reg : Reg) (sk : Bool) (bs : List ℕ) : Except Err Value :=
  match decodeVal reg sk maxDepth bs with
  | .error e => .error e
  | .ok (v, rest) => if rest = [] then .ok v else .error .valueError

/-- Module-level `encode(value)` with default options (§6: no extensions,
`str_keys=False`). -/
def encode (v : Value) : Except Err (List ℕ) := encodeFull false v

/-- Module-level `decode(bytes)` with default options (§6), against a
registry with no decoders registered. -/
def decode (bs : List ℕ) : Except Err Value := decodeFull emptyReg false bs

/-- Well-formedness of a value relative to a remaining nesting budget:
integers within [-2^63, 2^64-1], float bit patterns within 64 bits,
strings valid UTF-8, all lengths within the 32-bit length fields, and
containers nested no deeper than the budget.  With budget `maxDepth` this
is exactly the set of values the encoder accepts (§3, §4.3). -/
def validAt : ℕ → Value → Bool
  | _, .nil => true
  | _, .bool _ => true
  | _, .int v => decide (-(2 ^ 63) ≤ v ∧ v ≤ 2 ^ 64 - 1)
  | _, .float bits => decide (bits < 2 ^ 64)
  | _, .str s => utf8Valid s && decide (s.length ≤ 2 ^ 32 - 1)
  | _, .bin b => decide (b.length ≤ 2 ^ 32 - 1)
  | d, .arr items =>
    match d with
    | 0 => false
    | d' + 1 => decide (items.length ≤ 2 ^ 32 - 1) && items.all (fun v => validAt d' v)
  | d, .map pairs =>
    match d with
    | 0 => false
    | d' + 1 =>
      decide (pairs.length ≤ 2 ^ 32 - 1) &&
        pairs.all (fun p => validAt d' p.1 && validAt d' p.2)

/-- NaN test on an IEEE-754 binary64 bit pattern: exponent field all ones
and non-zero mantissa. -/
def isNaNBits (b : ℕ) : Bool := decide (b / 2 ^ 52 % 2 ^ 11 = 2047 ∧ b % 2 ^ 52 ≠ 0)

/-- Zero test on an IEEE-754 binary64 bit pattern (+0.0 or -0.0). -/
def isZeroBits (b : ℕ) : Bool := b == 0 || b == 2 ^ 63

/-- IEEE-754 equality on binary64 bit patterns, as the host's `==` sees
floats: NaN compares unequal to everything (itself included), +0.0 and
-0.0 compare equal, every other value equals only its own bit pattern. -/
def floatEqBits (a b : ℕ) : Bool :=
  !isNaNBits a && !isNaNBits b && (a == b || (isZeroBits a && isZeroBits b))

/-- Whether a value contains a NaN float anywhere, within the given
nesting budget. -/
def hasNaN : ℕ → Value → Bool
  | _, .float b => isNaNBits b
  | d, .arr items =>
    match d with
    | 0 => false
    | d' + 1 => items.any (fun v => hasNaN d' v)
  | d, .map pairs =>
    match d with
    | 0 => false
    | d' + 1 => pairs.any (fun p => hasNaN d' p.1 || hasNaN d' p.2)
  | _, _ => false

/-- Pointwise list comparison with a given element comparison. -/
def eqListWith (f : Value → Value → Bool) : List Value → List Value → Bool
  | [], [] => true
  | a :: as_, b :: bs_ => f a b && eqListWith f as_ bs_
  | _, _ => false

/-- Pointwise pair-list comparison with a given element comparison. -/
def eqPairsWith (f : Value → Value → Bool) :
    List (Value × Value) → List (Value × Value) → Bool
  | [], [] => true
  | a :: as_, b :: bs_ => f a.1 b.1 && f a.2 b.2 && eqPairsWith f as_ bs_
  | _, _ => false

/-- Host `==` on identically-shaped value graphs, within a nesting
budget: structural equality except that floats compare by IEEE-754
semantics (`floatEqBits`), so a graph containing NaN is unequal even to
itself. -/
def pyEqAt : ℕ → Value → Value → Bool
  | _, .nil, .nil => true
  | _, .bool a, .bool b => a == b
  | _, .int a, .int b => a == b
  | _, .float a, .float b => floatEqBits a b
  | _, .str a, .str b => a == b
  | _, .bin a, .bin b => a == b
  | d, .arr as_, .arr bs_ =>
    match d with
    | 0 => false
    | d' + 1 => eqListWith (fun a b => pyEqAt d' a b) as_ bs_
  | d, .map as_, .map bs_ =>
    match d with
    | 0 => false
    | d' + 1 => eqPairsWith (fun a b => pyEqAt d' a b) as_ bs_
  | _, _, _ => false

/-- List nested inside itself `n` times, the claim C1 depth probe:
`deepList 0` is an integer, `deepList (n+1)` is `[deepList n]`. -/
def deepList : ℕ → Value
  | 0 => .int 0
  | n + 1 => .arr [deepList n]

/-- MessagePack integer wire forms, §4.1: the forms an integer value may
be carried in. -/
inductive IntForm where
  | posfix
  | negfix
  | u8
  | u16
  | u32
  | u64
  | i8
  | i16
  | i32
  | i64
deriving DecidableEq, Repr

/-- Encoded byte length of each integer form (tag byte plus payload). -/
def IntForm.lenBytes : IntForm → ℕ
  | .posfix => 1
  | .negfix => 1
  | .u8 => 2
  | .i8 => 2
  | .u16 => 3
  | .i16 => 3
  | .u32 => 5
  | .i32 => 5
  | .u64 => 9
  | .i64 => 9

/-- Whether an integer form can represent the value `v` (§4.1 ranges). -/
def IntForm.fits : IntForm → ℤ → Bool
  | .posfix, v => decide (0 ≤ v ∧ v ≤ 127)
  | .negfix, v => decide (-32 ≤ v ∧ v ≤ -1)
  | .u8, v => decide (0 ≤ v ∧ v ≤ 2 ^ 8 - 1)
  | .u16, v => decide (0 ≤ v ∧ v ≤ 2 ^ 16 - 1)
  | .u32, v => decide (0 ≤ v ∧ v ≤ 2 ^ 32 - 1)
  | .u64, v => decide (0 ≤ v ∧ v ≤ 2 ^ 64 - 1)
  | .i8, v => decide (-(2 ^ 7) ≤ v ∧ v ≤ 2 ^ 7 - 1)
  | .i16, v => decide (-(2 ^ 15) ≤ v ∧ v ≤ 2 ^ 15 - 1)
  | .i32, v => decide (-(2 ^ 31) ≤ v ∧ v ≤ 2 ^ 31 - 1)
  | .i64, v => decide (-(2 ^ 63) ≤ v ∧ v ≤ 2 ^ 63 - 1)

/-- Modelled from the spec (§4.3, User type): the wire bytes of an Ext
value with id `i` and payload `pl` — fixext for payload lengths 1, 2, 4,
8, 16, otherwise ext8/16/32 by length, the id byte in two's
complement. -/
def extBytes (i : ℤ) (pl : List ℕ) : Except Err (List ℕ) :=
  let idb := (i % 256).toNat
  if pl.length = 1 then .ok (0xd4 :: idb :: pl)
  else if pl.length = 2 then .ok (0xd5 :: idb :: pl)
  else if pl.length = 4 then .ok (0xd6 :: idb :: pl)
  else if pl.length = 8 then .ok (0xd7 :: idb :: pl)
  else if pl.length = 16 then .ok (0xd8 :: idb :: pl)
  else if pl.length ≤ 2 ^ 8 - 1 then .ok (0xc7 :: pl.length :: idb :: pl)
  else if pl.length ≤ 2 ^ 16 - 1 then .ok (0xc8 :: beBytes 2 pl.length ++ idb :: pl)
  else if pl.length ≤ 2 ^ 32 - 1 then .ok (0xc9 :: beBytes 4 pl.length ++ idb :: pl)
  else .error .overflowError

/-- In-memory `Stream` state, §4.6: owned growable buffer and a read
offset. -/
structure MStream where
  buf : List ℕ
  roff : ℕ

/-- Modelled from the spec (§4.6) and callers (src/tests/stream.py,
src/benchmarks/structured.py use `dec(enc(v))`): `Stream.encode` appends
the encoding of `v` to the owned buffer and returns the encoded bytes. -/
def streamEncode (s : MStream) (sk : Bool) (v : Value) :
    Except Err (List ℕ × MStream) :=
  match encodeFull sk v with
  | .error e => .error e
  | .ok bs => .ok (bs, ⟨s.buf ++ bs, s.roff⟩)

/-- Modelled from the spec (§4.6): the overloaded `Stream.decode(buffer)`
parses the supplied buffer directly, leaving the stream's own buffer and
read offset untouched. -/
def streamDecodeBuf (_s : MStream) (reg : Reg) (sk : Bool) (bs : List ℕ) :
    Except Err Value :=
  decodeFull reg sk bs

/-- Modelled from the spec (§4.6): argument-less `Stream.decode()` parses
one Value at the read offset of the owned buffer and advances the offset
by the consumed length. -/
def streamDecodeSelf (s : MStream) (reg : Reg) (sk : Bool) :
    Except Err (Value × MStream) :=
  match decodeVal reg sk maxDepth (s.buf.drop s.roff) with
  | .error e => .error e
  | .ok (v, rest) =>
    .ok (v, ⟨s.buf, s.roff + ((s.buf.drop s.roff).length - rest.length)⟩)

/-- File-backed stream handle, §4.7: its own read offset and chunk size.
The file contents are passed explicitly (the exact concatenation of
encoded Values, §6 persisted state layout). -/
structure FStream where
  readOff : ℕ
  chunkSize : ℕ

/-- Construction of a `FileStream` handle on a path: `reading_offset`
defaults to 0, `chunk_size` to 65536 (§6 API). -/
def fileStreamNew (roff : ℕ) : FStream := ⟨roff, 65536⟩

/-- Modelled from the spec (§4.7): `FileStream.encode` serialises and
appends to the file; no read offset of any handle is touched. -/
def fsEncode (file : List ℕ) (sk : Bool) (v : Value) : Except Err (List ℕ) :=
  match encodeFull sk v with
  | .error e => .error e
  | .ok bs => .ok (file ++ bs)

/-- Modelled from the spec (§4.7): `FileStream.decode` parses one Value
from the handle's read offset and advances the offset by exactly the
consumed length.  The chunked windowed reading of the file is an
implementation detail that cannot change the parsed result, and is
abstracted into reading directly from the file suffix. -/
def fsDecode (file : List ℕ) (fs : FStream) (reg : Reg) (sk : Bool) :
    Except Err (Value × FStream) :=
  match decodeVal reg sk maxDepth (file.drop fs.readOff) with
  | .error e => .error e
  | .ok (v, rest) =>
    .ok (v, ⟨fs.readOff + ((file.drop fs.readOff).length - rest.length),
             fs.chunkSize⟩)

/-- Node of a host value graph that may contain reference cycles:
containers hold node identities rather than inline values (§9, cycle
detection: "record raw container identities"). -/
inductive GNode where
  | nil
  | bool (b : Bool)
  | int (v : ℤ)
  | float (bits : ℕ)
  | str (s : List ℕ)
  | bin (b : List ℕ)
  | arr (children : List ℕ)
  | map (pairs : List (ℕ × ℕ))
deriving DecidableEq, Repr

/-- Host value graph: a finite association of node identities to nodes. -/
abbrev Graph : Type := List (ℕ × GNode)

/-- Node lookup by identity. -/
def glookup (g : Graph) (i : ℕ) : Option GNode :=
  (g.find? (fun p => p.1 == i)).map Prod.snd

/-- Child identities of a node: array elements, and map keys and values
in order. -/
def gchildren : GNode → List ℕ
  | .arr cs => cs
  | .map ps => ps.foldr (fun p acc => p.1 :: p.2 :: acc) []
  | _ => []

/-- Sequential graph encoding of a list of child identities. -/
def encGSeq (f : ℕ → Except Err (List ℕ)) : List ℕ → Except Err (List ℕ)
  | [] => .ok []
  | i :: rest => do
    let b ← f i
    let bs ← encGSeq f rest
    .ok (b ++ bs)

/-- Sequential graph encoding of map pairs, key then value. -/
def encGPairs (f : ℕ → Except Err (List ℕ)) : List (ℕ × ℕ) → Except Err (List ℕ)
  | [] => .ok []
  | p :: rest => do
    let bk ← f p.1
    let bv ← f p.2
    let bs ← encGPairs f rest
    .ok (bk ++ bv ++ bs)

/-- Modelled from the spec (§4.3 and §9, cycle detection): the encoder
over a value graph, with default options.  The active set holds the
identities of the containers currently on the encode stack; a value
about to be encoded that is already in the active set fails with
RecursionError, as does a container met when no recursion depth is
left. -/
def encG (g : Graph) : ℕ → List ℕ → ℕ → Except Err (List ℕ)
  | d, act, i =>
    if i ∈ act then .error .recursionError
    else
      match glookup g i with
      | none => .error .typeError
      | some .nil => .ok [0xc0]
      | some (.bool false) => .ok [0xc2]
      | some (.bool true) => .ok [0xc3]
      | some (.int v) => encInt v
      | some (.float bits) => .ok (0xcb :: beBytes 8 bits)
      | some (.str s) => do
        let h ← strHeader s.length
        .ok (h ++ s)
      | some (.bin b) => do
        let h ← binHeader b.length
        .ok (h ++ b)
      | some (.arr cs) =>
        match d with
        | 0 => .error .recursionError
        | d' + 1 => do
          let h ← arrHeader cs.length
          let body ← encGSeq (fun j => encG g d' (i :: act) j) cs
          .ok (h ++ body)
      | some (.map ps) =>
        match d with
        | 0 => .error .recursionError
        | d' + 1 => do
          let h ← mapHeader ps.length
          let body ← encGPairs (fun j => encG g d' (i :: act) j) ps
          .ok (h ++ body)

/-- Graph encode entry point: empty active set, default depth limit. -/
def encGFull (g : Graph) (root : ℕ) : Except Err (List ℕ) :=
  encG g maxDepth [] root

/-- Edge of the value graph: `j` is a direct child of node `i`. -/
def GEdge (g : Graph) (i j : ℕ) : Prop :=
  ∃ n, glookup g i = some n ∧ j ∈ gchildren n

/-- Reachability in the value graph. -/
inductive GPath (g : Graph) : ℕ → ℕ → Prop where
  | refl (i : ℕ) : GPath g i i
  | step {i j k : ℕ} : GEdge g i j → GPath g j k → GPath g i k

/-- Per-node well-formedness: scalar payloads in range, length fields
within 32 bits, and every referenced child identity present in the
graph. -/
def gnodeOK (g : Graph) (n : GNode) : Bool :=
  match n with
  | .int v => decide (-(2 ^ 63) ≤ v ∧ v ≤ 2 ^ 64 - 1)
  | .str s => decide (s.length ≤ 2 ^ 32 - 1)
  | .bin b => decide (b.length ≤ 2 ^ 32 - 1)
  | .arr cs => decide (cs.length ≤ 2 ^ 32 - 1) && cs.all (fun j => (glookup g j).isSome)
  | .map ps =>
    decide (ps.length ≤ 2 ^ 32 - 1) &&
      ps.all (fun p => (glookup g p.1).isSome && (glookup g p.2).isSome)
  | _ => true

/-- Well-formedness of the whole graph. -/
def graphOK (g : Graph) : Bool := g.all (fun p => gnodeOK g p.2)

/-- Host objects whose buffers are byte-equivalent: raw bytes, a mutable
byte-array over them, or a non-owning view over them. -/
inductive PyBytesLike where
  | bytes (b : List ℕ)
  | byteArray (b : List ℕ)
  | memoryView (b : List ℕ)

/-- Underlying buffer of a bytes-like host object. -/
def PyBytesLike.data : PyBytesLike → List ℕ
  | .bytes b => b
  | .byteArray b => b
  | .memoryView b => b

/-- Modelled from the spec (§4.3): host types equivalent to bytes all
introspect as kind Bin, regardless of which of the three they are. -/
def pyBytesLikeToValue (x : PyBytesLike) : Value := .bin x.data

/-- Host sequence objects: the list-like and the tuple-like container. -/
inductive PySeq where
  | list (items : List Value)
  | tuple (items : List Value)

/-- Elements of a host sequence object. -/
def PySeq.elems : PySeq → List Value
  | .list items => items
  | .tuple items => items

/-- Modelled from the spec (§4.3): sequences encoded via the host's
tuple-like type are treated as Array, exactly as the list-like type. -/
def pySeqToValue (x : PySeq) : Value := .arr x.elems

/-- Child decoder available at a given remaining depth: none at depth
zero, the depth-decremented decoder otherwise. -/
def subOf (reg : Reg) (sk : Bool) : ℕ → Option (List ℕ → Except Err (Value × List ℕ))
  | 0 => none
  | d + 1 => some (fun b => decodeVal reg sk d b)

/-- Kind test: true for the non-container kinds. -/
def isScalar : Value → Bool
  | .arr _ => false
  | .map _ => false
  | _ => true

/-- Kind test for graph nodes: true for the non-container kinds. -/
def isGScalar : GNode → Bool
  | .arr _ => false
  | .map _ => false
  | _ => true

theorem beBytes_length (w : ℕ) : ∀ n, (beBytes w n).length = w := by
  induction w with
  | zero => intro n; rfl
  | succ w ih => intro n; simp [beBytes, ih]

theorem fromBE_append_one (bs : List ℕ) (b : ℕ) :
    fromBE (bs ++ [b]) = fromBE bs * 256 + b := by
  simp [fromBE, List.foldl_append]

theorem fromBE_beBytes (w : ℕ) : ∀ n, fromBE (beBytes w n) = n % 2 ^ (8 * w) := by
  induction w with
  | zero => intro n; simp [beBytes, fromBE, Nat.mod_one]
  | succ w ih =>
    intro n
    have hsplit : n % (256 * 2 ^ (8 * w)) = n % 256 + 256 * (n / 256 % 2 ^ (8 * w)) :=
      Nat.mod_mul
    have hpow : 2 ^ (8 * (w + 1)) = 256 * 2 ^ (8 * w) := by ring
    rw [beBytes, fromBE_append_one, ih, hpow, hsplit]
    ring

theorem fromBE_beBytes_lt {w n : ℕ} (h : n < 2 ^ (8 * w)) :
    fromBE (beBytes w n) = n := by
  rw [fromBE_beBytes, Nat.mod_eq_of_lt h]

theorem readN_exact {n : ℕ} {l r : List ℕ} (h : l.length = n) :
    readN n (l ++ r) = .ok (l, r) := by
  subst h
  simp [readN, List.take_left, List.drop_left]

theorem decodeVal_succ (reg : Reg) (sk : Bool) (d : ℕ) (bs : List ℕ) :
    decodeVal reg sk (d + 1) bs =
      decodeOne reg sk (some (fun b => decodeVal reg sk d b)) bs := rfl

theorem dec_posfix (reg : Reg) (sk : Bool) (sub : Option (List ℕ → Except Err (Value × List ℕ)))
    {t : ℕ} (h : t ≤ 0x7f) (bs : List ℕ) :
    decodeOne reg sk sub (t :: bs) = .ok (.int t, bs) := by
  cases sub <;> rw [decodeOne, if_pos h]

theorem dec_negfix (reg : Reg) (sk : Bool) (sub : Option (List ℕ → Except Err (Value × List ℕ)))
    {t : ℕ} (h : 0xe0 ≤ t) (bs : List ℕ) :
    decodeOne reg sk sub (t :: bs) = .ok (.int ((t : ℤ) - 256), bs) := by
  cases sub <;>
    rw [decodeOne, if_neg (by omega), if_neg (by omega), if_neg (by omega), if_neg (by omega),
      if_pos h]

theorem dec_fixstr (reg : Reg) (sk : Bool) (sub : Option (List ℕ → Except Err (Value × List ℕ)))
    {L : ℕ} (h : L ≤ 31) (bs : List ℕ) :
    decodeOne reg sk sub ((0xa0 + L) :: bs) = decStrPayload L bs := by
  have h2 : 0xa0 + L - 0xa0 = L := by omega
  cases sub <;>
    rw [decodeOne, if_neg (by omega), if_neg (by omega), if_neg (by omega), if_pos (by omega), h2]

theorem dec_fixarr (reg : Reg) (sk : Bool) (f : List ℕ → Except Err (Value × List ℕ))
    {L : ℕ} (h : L ≤ 15) (bs : List ℕ) :
    decodeOne reg sk (some f) ((0x90 + L) :: bs) =
      (do
        let (vs, r) ← decItems f L bs
        .ok (.arr vs, r)) := by
  have h2 : 0x90 + L - 0x90 = L := by omega
  rw [decodeOne, if_neg (by omega), if_neg (by omega), if_pos (by omega), h2]

theorem dec_fixmap (reg : Reg) (sk : Bool) (f : List ℕ → Except Err (Value × List ℕ))
    {L : ℕ} (h : L ≤ 15) (bs : List ℕ) :
    decodeOne reg sk (some f) ((0x80 + L) :: bs) =
      (do
        let (ps, r) ← decPairs sk f L bs
        .ok (.map ps, r)) := by
  have h2 : 0x80 + L - 0x80 = L := by omega
  rw [decodeOne, if_neg (by omega), if_pos (by omega), h2]

theorem dec_fixed (reg : Reg) (sk : Bool) (sub : Option (List ℕ → Except Err (Value × List ℕ)))
    {t : ℕ} (h1 : 0xc0 ≤ t) (h2 : t ≤ 0xdf) (bs : List ℕ) :
    decodeOne reg sk sub (t :: bs) = decodeFixed reg sk sub t bs := by
  cases sub <;>
    rw [decodeOne, if_neg (by omega), if_neg (by omega), if_neg (by omega), if_neg (by omega),
      if_neg (by omega)]

theorem dec_tag_u16 (reg : Reg) (sk : Bool) (sub : Option (List ℕ → Except Err (Value × List ℕ)))
    (bs : List ℕ) :
    decodeFixed reg sk sub 0xcd bs =
      (do
        let (b2, r) ← readN 2 bs
        .ok (.int (fromBE b2), r)) := by
  rw [decodeFixed]

theorem fromBE_one (b : ℕ) : fromBE [b] = b := by
  simp [fromBE]

theorem rt_nil (reg : Reg) (sk : Bool) (sub : Option (List ℕ → Except Err (Value × List ℕ)))
    (extra : List ℕ) :
    decodeOne reg sk sub ([0xc0] ++ extra) = .ok (.nil, extra) := by
  rw [List.cons_append, List.nil_append, dec_fixed reg sk sub (by omega) (by omega),
    decodeFixed]

theorem rt_bool (reg : Reg) (sk : Bool) (sub : Option (List ℕ → Except Err (Value × List ℕ)))
    (b : Bool) (extra : List ℕ) :
    decodeOne reg sk sub ((if b then [0xc3] else [0xc2]) ++ extra) = .ok (.bool b, extra) := by
  cases b <;>
    · simp only [Bool.false_eq_true, if_false, if_true, List.cons_append, List.nil_append]
      rw [dec_fixed reg sk sub (by omega) (by omega), decodeFixed]

theorem ok_bind {α β : Type} (x : α) (f : α → Except Err β) :
    (do
      let y ← (Except.ok x : Except Err α)
      f y) = f x := rfl

theorem ok_bind2 {α β γ : Type} (a : α) (b : β) (f : α × β → Except Err γ) :
    (do
      let y ← (Except.ok (a, b) : Except Err (α × β))
      f y) = f (a, b) := rfl

theorem ok_bind2m {α β γ : Type} (a : α) (b : β) (f : α → β → Except Err γ) :
    (do
      let y ← (Except.ok (a, b) : Except Err (α × β))
      match y with
      | (x, z) => f x z) = f a b := rfl

theorem rt_float (reg : Reg) (sk : Bool) (sub : Option (List ℕ → Except Err (Value × List ℕ)))
    {bits : ℕ} (h : bits < 2 ^ 64) (extra : List ℕ) :
    decodeOne reg sk sub ((0xcb :: beBytes 8 bits) ++ extra) = .ok (.float bits, extra) := by
  rw [List.cons_append, dec_fixed reg sk sub (by omega) (by omega), decodeFixed,
    readN_exact (beBytes_length 8 bits), ok_bind2]
  show Except.ok (Value.float (fromBE (beBytes 8 bits)), extra) = _
  rw [fromBE_beBytes_lt (show bits < 2 ^ (8 * 8) by omega)]

theorem dec_u8 (reg : Reg) (sk : Bool) (sub : Option (List ℕ → Except Err (Value × List ℕ)))
    {l : List ℕ} (h : l.length = 1) (extra : List ℕ) :
    decodeFixed reg sk sub 0xcc (l ++ extra) = .ok (.int (fromBE l), extra) := by
  rw [decodeFixed, readN_exact h, ok_bind2]

theorem dec_u16 (reg : Reg) (sk : Bool) (sub : Option (List ℕ → Except Err (Value × List ℕ)))
    {l : List ℕ} (h : l.length = 2) (extra : List ℕ) :
    decodeFixed reg sk sub 0xcd (l ++ extra) = .ok (.int (fromBE l), extra) := by
  rw [decodeFixed, readN_exact h, ok_bind2]

theorem dec_u32 (reg : Reg) (sk : Bool) (sub : Option (List ℕ → Except Err (Value × List ℕ)))
    {l : List ℕ} (h : l.length = 4) (extra : List ℕ) :
    decodeFixed reg sk sub 0xce (l ++ extra) = .ok (.int (fromBE l), extra) := by
  rw [decodeFixed, readN_exact h, ok_bind2]

theorem dec_u64 (reg : Reg) (sk : Bool) (sub : Option (List ℕ → Except Err (Value × List ℕ)))
    {l : List ℕ} (h : l.length = 8) (extra : List ℕ) :
    decodeFixed reg sk sub 0xcf (l ++ extra) = .ok (.int (fromBE l), extra) := by
  rw [decodeFixed, readN_exact h, ok_bind2]

theorem dec_i8 (reg : Reg) (sk : Bool) (sub : Option (List ℕ → Except Err (Value × List ℕ)))
    {l : List ℕ} (h : l.length = 1) (extra : List ℕ) :
    decodeFixed reg sk sub 0xd0 (l ++ extra) = .ok (.int (decSigned 1 (fromBE l)), extra) := by
  rw [decodeFixed, readN_exact h, ok_bind2]

theorem dec_i16 (reg : Reg) (sk : Bool) (sub : Option (List ℕ → Except Err (Value × List ℕ)))
    {l : List ℕ} (h : l.length = 2) (extra : List ℕ) :
    decodeFixed reg sk sub 0xd1 (l ++ extra) = .ok (.int (decSigned 2 (fromBE l)), extra) := by
  rw [decodeFixed, readN_exact h, ok_bind2]

theorem dec_i32 (reg : Reg) (sk : Bool) (sub : Option (List ℕ → Except Err (Value × List ℕ)))
    {l : List ℕ} (h : l.length = 4) (extra : List ℕ) :
    decodeFixed reg sk sub 0xd2 (l ++ extra) = .ok (.int (decSigned 4 (fromBE l)), extra) := by
  rw [decodeFixed, readN_exact h, ok_bind2]

theorem dec_i64 (reg : Reg) (sk : Bool) (sub : Option (List ℕ → Except Err (Value × List ℕ)))
    {l : List ℕ} (h : l.length = 8) (extra : List ℕ) :
    decodeFixed reg sk sub 0xd3 (l ++ extra) = .ok (.int (decSigned 8 (fromBE l)), extra) := by
  rw [decodeFixed, readN_exact h, ok_bind2]

theorem dec_str8 (reg : Reg) (sk : Bool) (sub : Option (List ℕ → Except Err (Value × List ℕ)))
    {l : List ℕ} (h : l.length = 1) (rest : List ℕ) :
    decodeFixed reg sk sub 0xd9 (l ++ rest) = decStrPayload (fromBE l) rest := by
  rw [decodeFixed, readN_exact h, ok_bind2]

theorem dec_str16 (reg : Reg) (sk : Bool) (sub : Option (List ℕ → Except Err (Value × List ℕ)))
    {l : List ℕ} (h : l.length = 2) (rest : List ℕ) :
    decodeFixed reg sk sub 0xda (l ++ rest) = decStrPayload (fromBE l) rest := by
  rw [decodeFixed, readN_exact h, ok_bind2]

theorem dec_str32 (reg : Reg) (sk : Bool) (sub : Option (List ℕ → Except Err (Value × List ℕ)))
    {l : List ℕ} (h : l.length = 4) (rest : List ℕ) :
    decodeFixed reg sk sub 0xdb (l ++ rest) = decStrPayload (fromBE l) rest := by
  rw [decodeFixed, readN_exact h, ok_bind2]

theorem dec_bin8 (reg : Reg) (sk : Bool) (sub : Option (List ℕ → Except Err (Value × List ℕ)))
    {l p : List ℕ} (h : l.length = 1) (h2 : fromBE l = p.length) (extra : List ℕ) :
    decodeFixed reg sk sub 0xc4 (l ++ (p ++ extra)) = .ok (.bin p, extra) := by
  rw [decodeFixed, readN_exact h, ok_bind2]
  show (do
    let y ← readN (fromBE l) (p ++ extra)
    match y with
    | (p2, r2) => (Except.ok (.bin p2, r2) : Except Err (Value × List ℕ))) = _
  rw [h2, readN_exact rfl, ok_bind2]

theorem dec_bin16 (reg : Reg) (sk : Bool) (sub : Option (List ℕ → Except Err (Value × List ℕ)))
    {l p : List ℕ} (h : l.length = 2) (h2 : fromBE l = p.length) (extra : List ℕ) :
    decodeFixed reg sk sub 0xc5 (l ++ (p ++ extra)) = .ok (.bin p, extra) := by
  rw [decodeFixed, readN_exact h, ok_bind2]
  show (do
    let y ← readN (fromBE l) (p ++ extra)
    match y with
    | (p2, r2) => (Except.ok (.bin p2, r2) : Except Err (Value × List ℕ))) = _
  rw [h2, readN_exact rfl, ok_bind2]

theorem dec_bin32 (reg : Reg) (sk : Bool) (sub : Option (List ℕ → Except Err (Value × List ℕ)))
    {l p : List ℕ} (h : l.length = 4) (h2 : fromBE l = p.length) (extra : List ℕ) :
    decodeFixed reg sk sub 0xc6 (l ++ (p ++ extra)) = .ok (.bin p, extra) := by
  rw [decodeFixed, readN_exact h, ok_bind2]
  show (do
    let y ← readN (fromBE l) (p ++ extra)
    match y with
    | (p2, r2) => (Except.ok (.bin p2, r2) : Except Err (Value × List ℕ))) = _
  rw [h2, readN_exact rfl, ok_bind2]

theorem dec_ext8 (reg : Reg) (sk : Bool) (sub : Option (List ℕ → Except Err (Value × List ℕ)))
    {l : List ℕ} (h : l.length = 1) (rest : List ℕ) :
    decodeFixed reg sk sub 0xc7 (l ++ rest) = decExtPayload reg (fromBE l) rest := by
  rw [decodeFixed, readN_exact h, ok_bind2]

theorem dec_ext16 (reg : Reg) (sk : Bool) (sub : Option (List ℕ → Except Err (Value × List ℕ)))
    {l : List ℕ} (h : l.length = 2) (rest : List ℕ) :
    decodeFixed reg sk sub 0xc8 (l ++ rest) = decExtPayload reg (fromBE l) rest := by
  rw [decodeFixed, readN_exact h, ok_bind2]

theorem dec_ext32 (reg : Reg) (sk : Bool) (sub : Option (List ℕ → Except Err (Value × List ℕ)))
    {l : List ℕ} (h : l.length = 4) (rest : List ℕ) :
    decodeFixed reg sk sub 0xc9 (l ++ rest) = decExtPayload reg (fromBE l) rest := by
  rw [decodeFixed, readN_exact h, ok_bind2]

theorem dec_arr16 (reg : Reg) (sk : Bool) (f : List ℕ → Except Err (Value × List ℕ))
    {l : List ℕ} (h : l.length = 2) (rest : List ℕ) :
    decodeFixed reg sk (some f) 0xdc (l ++ rest) =
      (do
        let (vs, r2) ← decItems f (fromBE l) rest
        .ok (.arr vs, r2)) := by
  rw [decodeFixed, readN_exact h, ok_bind2]

theorem dec_arr32 (reg : Reg) (sk : Bool) (f : List ℕ → Except Err (Value × List ℕ))
    {l : List ℕ} (h : l.length = 4) (rest : List ℕ) :
    decodeFixed reg sk (some f) 0xdd (l ++ rest) =
      (do
        let (vs, r2) ← decItems f (fromBE l) rest
        .ok (.arr vs, r2)) := by
  rw [decodeFixed, readN_exact h, ok_bind2]

theorem dec_map16 (reg : Reg) (sk : Bool) (f : List ℕ → Except Err (Value × List ℕ))
    {l : List ℕ} (h : l.length = 2) (rest : List ℕ) :
    decodeFixed reg sk (some f) 0xde (l ++ rest) =
      (do
        let (ps, r2) ← decPairs sk f (fromBE l) rest
        .ok (.map ps, r2)) := by
  rw [decodeFixed, readN_exact h, ok_bind2]

theorem dec_map32 (reg : Reg) (sk : Bool) (f : List ℕ → Except Err (Value × List ℕ))
    {l : List ℕ} (h : l.length = 4) (rest : List ℕ) :
    decodeFixed reg sk (some f) 0xdf (l ++ rest) =
      (do
        let (ps, r2) ← decPairs sk f (fromBE l) rest
        .ok (.map ps, r2)) := by
  rw [decodeFixed, readN_exact h, ok_bind2]

theorem decStrPayload_exact {s : List ℕ} (h : utf8Valid s = true) (extra : List ℕ) :
    decStrPayload s.length (s ++ extra) = .ok (.str s, extra) := by
  rw [decStrPayload, readN_exact rfl, ok_bind2]
  show (if utf8Valid s then (Except.ok (.str s, extra) : Except Err (Value × List ℕ))
    else .error .valueError) = _
  rw [h]
  simp

theorem int_eq_ok {a b : ℤ} (extra : List ℕ) (h : a = b) :
    (Except.ok (Value.int a, extra) : Except Err (Value × List ℕ)) = .ok (.int b, extra) := by
  rw [h]

theorem decSigned_beBytes {w x : ℕ} (hx : x < 2 ^ (8 * w)) (hge : 2 ^ (8 * w - 1) ≤ x) :
    decSigned w (fromBE (beBytes w x)) = (x : ℤ) - 2 ^ (8 * w) := by
  rw [fromBE_beBytes_lt hx, decSigned, if_neg (by omega)]

theorem rt_int (reg : Reg) (sk : Bool) (sub : Option (List ℕ → Except Err (Value × List ℕ)))
    {v : ℤ} (h : -(2 ^ 63) ≤ v ∧ v ≤ 2 ^ 64 - 1) (extra : List ℕ) :
    ∃ bs, encInt v = .ok bs ∧ decodeOne reg sk sub (bs ++ extra) = .ok (.int v, extra) := by
  by_cases h1 : 0 ≤ v ∧ v ≤ 127
  · refine ⟨[v.toNat], by rw [encInt, if_pos h1], ?_⟩
    rw [List.cons_append, List.nil_append, dec_posfix reg sk sub (by omega) extra]
    exact int_eq_ok extra (by omega)
  by_cases h2 : -32 ≤ v ∧ v < 0
  · refine ⟨[(v + 256).toNat], by rw [encInt, if_neg h1, if_pos h2], ?_⟩
    rw [List.cons_append, List.nil_append, dec_negfix reg sk sub (by omega) extra]
    exact int_eq_ok extra (by omega)
  by_cases h3 : v < 0
  · by_cases h4 : -128 ≤ v
    · refine ⟨0xd0 :: beBytes 1 (v + 2 ^ 8).toNat,
        by rw [encInt, if_neg h1, if_neg h2, if_pos h3, if_pos h4], ?_⟩
      rw [List.cons_append, dec_fixed reg sk sub (by omega) (by omega),
        dec_i8 reg sk sub (beBytes_length 1 _) extra,
        decSigned_beBytes (by omega) (by omega)]
      exact int_eq_ok extra (by omega)
    by_cases h5 : -(2 ^ 15) ≤ v
    · refine ⟨0xd1 :: beBytes 2 (v + 2 ^ 16).toNat,
        by rw [encInt, if_neg h1, if_neg h2, if_pos h3, if_neg h4, if_pos h5], ?_⟩
      rw [List.cons_append, dec_fixed reg sk sub (by omega) (by omega),
        dec_i16 reg sk sub (beBytes_length 2 _) extra,
        decSigned_beBytes (by omega) (by omega)]
      exact int_eq_ok extra (by omega)
    by_cases h6 : -(2 ^ 31) ≤ v
    · refine ⟨0xd2 :: beBytes 4 (v + 2 ^ 32).toNat,
        by rw [encInt, if_neg h1, if_neg h2, if_pos h3, if_neg h4, if_neg h5, if_pos h6], ?_⟩
      rw [List.cons_append, dec_fixed reg sk sub (by omega) (by omega),
        dec_i32 reg sk sub (beBytes_length 4 _) extra,
        decSigned_beBytes (by omega) (by omega)]
      exact int_eq_ok extra (by omega)
    · refine ⟨0xd3 :: beBytes 8 (v + 2 ^ 64).toNat,
        by rw [encInt, if_neg h1, if_neg h2, if_pos h3, if_neg h4, if_neg h5, if_neg h6,
          if_pos (show -(2 ^ 63) ≤ v from h.1)], ?_⟩
      rw [List.cons_append, dec_fixed reg sk sub (by omega) (by omega),
        dec_i64 reg sk sub (beBytes_length 8 _) extra,
        decSigned_beBytes (by omega) (by omega)]
      exact int_eq_ok extra (by omega)
  · by_cases h7 : v ≤ 2 ^ 8 - 1
    · refine ⟨0xcc :: beBytes 1 v.toNat,
        by rw [encInt, if_neg h1, if_neg h2, if_neg h3, if_pos h7], ?_⟩
      rw [List.cons_append, dec_fixed reg sk sub (by omega) (by omega),
        dec_u8 reg sk sub (beBytes_length 1 _) extra,
        fromBE_beBytes_lt (show (v.toNat : ℕ) < 2 ^ (8 * 1) by omega)]
      exact int_eq_ok extra (by omega)
    by_cases h8 : v ≤ 2 ^ 16 - 1
    · refine ⟨0xcd :: beBytes 2 v.toNat,
        by rw [encInt, if_neg h1, if_neg h2, if_neg h3, if_neg h7, if_pos h8], ?_⟩
      rw [List.cons_append, dec_fixed reg sk sub (by omega) (by omega),
        dec_u16 reg sk sub (beBytes_length 2 _) extra,
        fromBE_beBytes_lt (show (v.toNat : ℕ) < 2 ^ (8 * 2) by omega)]
      exact int_eq_ok extra (by omega)
    by_cases h9 : v ≤ 2 ^ 32 - 1
    · refine ⟨0xce :: beBytes 4 v.toNat,
        by rw [encInt, if_neg h1, if_neg h2, if_neg h3, if_neg h7, if_neg h8, if_pos h9], ?_⟩
      rw [List.cons_append, dec_fixed reg sk sub (by omega) (by omega),
        dec_u32 reg sk sub (beBytes_length 4 _) extra,
        fromBE_beBytes_lt (show (v.toNat : ℕ) < 2 ^ (8 * 4) by omega)]
      exact int_eq_ok extra (by omega)
    · refine ⟨0xcf :: beBytes 8 v.toNat,
        by rw [encInt, if_neg h1, if_neg h2, if_neg h3, if_neg h7, if_neg h8, if_neg h9,
          if_pos (show v ≤ 2 ^ 64 - 1 from h.2)], ?_⟩
      rw [List.cons_append, dec_fixed reg sk sub (by omega) (by omega),
        dec_u64 reg sk sub (beBytes_length 8 _) extra,
        fromBE_beBytes_lt (show (v.toNat : ℕ) < 2 ^ (8 * 8) by omega)]
      exact int_eq_ok extra (by omega)

theorem rt_str (reg : Reg) (sk : Bool) (sub : Option (List ℕ → Except Err (Value × List ℕ)))
    {s : List ℕ} (h1 : utf8Valid s = true) (h2 : s.length ≤ 2 ^ 32 - 1) (extra : List ℕ) :
    ∃ hd, strHeader s.length = .ok hd ∧
      decodeOne reg sk sub ((hd ++ s) ++ extra) = .ok (.str s, extra) := by
  by_cases c1 : s.length ≤ 31
  · refine ⟨[0xa0 + s.length], by rw [strHeader, if_pos c1], ?_⟩
    rw [List.append_assoc, List.cons_append, List.nil_append, dec_fixstr reg sk sub c1,
      decStrPayload_exact h1]
  by_cases c2 : s.length ≤ 2 ^ 8 - 1
  · refine ⟨[0xd9, s.length], by rw [strHeader, if_neg c1, if_pos c2], ?_⟩
    rw [List.append_assoc, List.cons_append, dec_fixed reg sk sub (by omega) (by omega),
      List.cons_append, List.nil_append,
      show (s.length :: (s ++ extra)) = [s.length] ++ (s ++ extra) from rfl,
      @dec_str8 reg sk sub [s.length] rfl (s ++ extra), fromBE_one, decStrPayload_exact h1]
  by_cases c3 : s.length ≤ 2 ^ 16 - 1
  · refine ⟨0xda :: beBytes 2 s.length, by rw [strHeader, if_neg c1, if_neg c2, if_pos c3], ?_⟩
    have e : fromBE (beBytes 2 s.length) = s.length := fromBE_beBytes_lt (by omega)
    rw [List.append_assoc, List.cons_append, dec_fixed reg sk sub (by omega) (by omega),
      dec_str16 reg sk sub (beBytes_length 2 _), e, decStrPayload_exact h1]
  · refine ⟨0xdb :: beBytes 4 s.length,
      by rw [strHeader, if_neg c1, if_neg c2, if_neg c3, if_pos h2], ?_⟩
    have e : fromBE (beBytes 4 s.length) = s.length := fromBE_beBytes_lt (by omega)
    rw [List.append_assoc, List.cons_append, dec_fixed reg sk sub (by omega) (by omega),
      dec_str32 reg sk sub (beBytes_length 4 _), e, decStrPayload_exact h1]

theorem rt_bin (reg : Reg) (sk : Bool) (sub : Option (List ℕ → Except Err (Value × List ℕ)))
    {b : List ℕ} (h2 : b.length ≤ 2 ^ 32 - 1) (extra : List ℕ) :
    ∃ hd, binHeader b.length = .ok hd ∧
      decodeOne reg sk sub ((hd ++ b) ++ extra) = .ok (.bin b, extra) := by
  by_cases c1 : b.length ≤ 2 ^ 8 - 1
  · refine ⟨[0xc4, b.length], by rw [binHeader, if_pos c1], ?_⟩
    rw [List.append_assoc, List.cons_append, dec_fixed reg sk sub (by omega) (by omega),
      List.cons_append, List.nil_append,
      show (b.length :: (b ++ extra)) = [b.length] ++ (b ++ extra) from rfl,
      @dec_bin8 reg sk sub [b.length] b rfl (fromBE_one _) extra]
  by_cases c2 : b.length ≤ 2 ^ 16 - 1
  · refine ⟨0xc5 :: beBytes 2 b.length, by rw [binHeader, if_neg c1, if_pos c2], ?_⟩
    have e : fromBE (beBytes 2 b.length) = b.length := fromBE_beBytes_lt (by omega)
    rw [List.append_assoc, List.cons_append, dec_fixed reg sk sub (by omega) (by omega),
      dec_bin16 reg sk sub (beBytes_length 2 _) e extra]
  · refine ⟨0xc6 :: beBytes 4 b.length, by rw [binHeader, if_neg c1, if_neg c2, if_pos h2], ?_⟩
    have e : fromBE (beBytes 4 b.length) = b.length := fromBE_beBytes_lt (by omega)
    rw [List.append_assoc, List.cons_append, dec_fixed reg sk sub (by omega) (by omega),
      dec_bin32 reg sk sub (beBytes_length 4 _) e extra]

theorem seq_rt {P : Prop} (encF : Value → Except Err (List ℕ))
    (decF : List ℕ → Except Err (Value × List ℕ)) :
    ∀ (items : List Value),
      (∀ v ∈ items, ∀ extra, ∃ bs, encF v = .ok bs ∧
        (decF (bs ++ extra) = .ok (v, extra) ∨
         (P ∧ decF (bs ++ extra) = .error .typeError))) →
      ∀ extra, ∃ body, encSeq encF items = .ok body ∧
        (decItems decF items.length (body ++ extra) = .ok (items, extra) ∨
         (P ∧ decItems decF items.length (body ++ extra) = .error .typeError)) := by
  intro items
  induction items with
  | nil =>
    intro _ extra
    refine ⟨[], rfl, .inl ?_⟩
    rw [List.length_nil, List.nil_append, decItems]
  | cons v rest ih =>
    intro h extra
    obtain ⟨bodyR, hEncR, hDecR⟩ := ih (fun x hx e => h x (List.mem_cons_of_mem v hx) e) extra
    obtain ⟨bv, hEncV, hDecV⟩ := h v (List.mem_cons_self v rest) (bodyR ++ extra)
    refine ⟨bv ++ bodyR, ?_, ?_⟩
    · rw [encSeq, hEncV, ok_bind, hEncR, ok_bind]
    · rw [List.length_cons, List.append_assoc, decItems]
      rcases hDecV with hDecV | ⟨hP, hDecV⟩
      · rcases hDecR with hDecR | ⟨hP, hDecR⟩
        · simp only [hDecV, ok_bind, hDecR]
          exact .inl (by trivial)
        · simp only [hDecV, ok_bind, hDecR]
          exact .inr ⟨hP, by trivial⟩
      · simp only [hDecV]
        exact .inr ⟨hP, by trivial⟩

theorem pairs_rt (sk : Bool) (encF : Value → Except Err (List ℕ))
    (decF : List ℕ → Except Err (Value × List ℕ)) :
    ∀ (pairs : List (Value × Value)),
      (∀ p ∈ pairs, ∀ extra,
        (∃ bs, encF p.1 = .ok bs ∧
          (decF (bs ++ extra) = .ok (p.1, extra) ∨
           (sk = true ∧ decF (bs ++ extra) = .error .typeError))) ∧
        (∃ bs, encF p.2 = .ok bs ∧
          (decF (bs ++ extra) = .ok (p.2, extra) ∨
           (sk = true ∧ decF (bs ++ extra) = .error .typeError)))) →
      ∀ extra, ∃ body, encPairs false encF pairs = .ok body ∧
        (decPairs sk decF pairs.length (body ++ extra) = .ok (pairs, extra) ∨
         (sk = true ∧ decPairs sk decF pairs.length (body ++ extra) = .error .typeError)) := by
  intro pairs
  induction pairs with
  | nil =>
    intro _ extra
    refine ⟨[], rfl, .inl ?_⟩
    rw [List.length_nil, List.nil_append, decPairs]
  | cons p rest ih =>
    intro h extra
    obtain ⟨k, v⟩ := p
    obtain ⟨bodyR, hEncR, hDecR⟩ := ih (fun x hx e => h x (List.mem_cons_of_mem _ hx) e) extra
    obtain ⟨bv, hEncV, hDecV⟩ := (h (k, v) (List.mem_cons_self _ rest) (bodyR ++ extra)).2
    obtain ⟨bk, hEncK, hDecK⟩ := (h (k, v) (List.mem_cons_self _ rest) (bv ++ (bodyR ++ extra))).1
    refine ⟨bk ++ (bv ++ bodyR), ?_, ?_⟩
    · show (do
        let b1 ← encF k
        let b2 ← encF v
        let bs ← encPairs false encF rest
        Except.ok (b1 ++ b2 ++ bs)) = _
      rw [hEncK, ok_bind, hEncV, ok_bind, hEncR, ok_bind, List.append_assoc]
    · rw [List.length_cons, List.append_assoc, List.append_assoc, decPairs]
      rcases hDecK with hDecK | ⟨hP, hDecK⟩
      · simp only [hDecK, ok_bind]
        by_cases hc : (sk && !isStr k) = true
        · simp only [hc, if_true]
          exact .inr ⟨(Bool.and_eq_true _ _).mp hc |>.1, by trivial⟩
        · simp only [Bool.not_eq_true] at hc
          simp only [hc, Bool.false_eq_true, if_false]
          rcases hDecV with hDecV | ⟨hP, hDecV⟩
          · simp only [hDecV, ok_bind]
            rcases hDecR with hDecR | ⟨hP, hDecR⟩
            · simp only [hDecR, ok_bind]
              exact .inl (by trivial)
            · simp only [hDecR]
              exact .inr ⟨hP, by trivial⟩
          · simp only [hDecV]
            exact .inr ⟨hP, by trivial⟩
      · simp only [hDecK]
        exact .inr ⟨hP, by trivial⟩

theorem decodeVal_eq (reg : Reg) (sk : Bool) (d : ℕ) (bs : List ℕ) :
    decodeVal reg sk d bs = decodeOne reg sk (subOf reg sk d) bs := by
  cases d <;> rfl

theorem rt_any_scalar (reg : Reg) (sk : Bool) (d : ℕ) :
    ∀ {v : Value}, isScalar v = true → validAt d v = true → ∀ extra,
      ∃ bs, encodeVal false d v = .ok bs ∧ decodeVal reg sk d (bs ++ extra) = .ok (v, extra) := by
  intro v hs hv extra
  cases v with
  | nil =>
    exact ⟨[0xc0], by cases d <;> rfl, by rw [decodeVal_eq]; exact rt_nil reg sk _ extra⟩
  | bool b =>
    refine ⟨if b then [0xc3] else [0xc2], by cases b <;> cases d <;> rfl, ?_⟩
    rw [decodeVal_eq]
    exact rt_bool reg sk _ b extra
  | int n =>
    have hr : -(2 ^ 63) ≤ n ∧ n ≤ 2 ^ 64 - 1 := by
      have h2 := hv
      cases d <;> simp [validAt] at h2 <;> exact h2
    obtain ⟨bs, hE, hD⟩ := rt_int reg sk (subOf reg sk d) hr extra
    exact ⟨bs, by cases d <;> exact hE, by rw [decodeVal_eq]; exact hD⟩
  | float bits =>
    have hb : bits < 2 ^ 64 := by
      have h2 := hv
      cases d <;> simp [validAt] at h2 <;> exact h2
    exact ⟨0xcb :: beBytes 8 bits, by cases d <;> rfl,
      by rw [decodeVal_eq]; exact rt_float reg sk _ hb extra⟩
  | str s =>
    have hb : utf8Valid s = true ∧ s.length ≤ 2 ^ 32 - 1 := by
      have h2 := hv
      cases d <;> simp [validAt] at h2 <;> exact h2
    obtain ⟨hd, hHd, hDec⟩ := rt_str reg sk (subOf reg sk d) hb.1 hb.2 extra
    refine ⟨hd ++ s, ?_, by rw [decodeVal_eq]; exact hDec⟩
    have he : encodeVal false d (.str s) =
        (do
          let h ← strHeader s.length
          Except.ok (h ++ s)) := by cases d <;> rfl
    rw [he, hHd, ok_bind]
  | bin b =>
    have hb : b.length ≤ 2 ^ 32 - 1 := by
      have h2 := hv
      cases d <;> simp [validAt] at h2 <;> exact h2
    obtain ⟨hd, hHd, hDec⟩ := rt_bin reg sk (subOf reg sk d) hb extra
    refine ⟨hd ++ b, ?_, by rw [decodeVal_eq]; exact hDec⟩
    have he : encodeVal false d (.bin b) =
        (do
          let h ← binHeader b.length
          Except.ok (h ++ b)) := by cases d <;> rfl
    rw [he, hHd, ok_bind]
  | arr items => simp [isScalar] at hs
  | map pairs => simp [isScalar] at hs

theorem rt_main (reg : Reg) (sk : Bool) :
    ∀ (d : ℕ) (v : Value), validAt d v = true → ∀ (extra : List ℕ),
      ∃ bs, encodeVal false d v = .ok bs ∧
        (decodeVal reg sk d (bs ++ extra) = .ok (v, extra) ∨
         (sk = true ∧ decodeVal reg sk d (bs ++ extra) = .error .typeError)) := by
  intro d
  induction d with
  | zero =>
    intro v hv extra
    have hs : isScalar v = true := by
      cases v <;> simp_all [isScalar, validAt]
    obtain ⟨bs, hE, hD⟩ := rt_any_scalar reg sk 0 hs hv extra
    exact ⟨bs, hE, .inl hD⟩
  | succ d ih =>
    intro v hv extra
    cases v with
    | nil =>
      obtain ⟨bs, hE, hD⟩ := rt_any_scalar reg sk (d + 1) (by rfl) hv extra
      exact ⟨bs, hE, .inl hD⟩
    | bool b =>
      obtain ⟨bs, hE, hD⟩ := rt_any_scalar reg sk (d + 1) (by rfl) hv extra
      exact ⟨bs, hE, .inl hD⟩
    | int n =>
      obtain ⟨bs, hE, hD⟩ := rt_any_scalar reg sk (d + 1) (by rfl) hv extra
      exact ⟨bs, hE, .inl hD⟩
    | float bits =>
      obtain ⟨bs, hE, hD⟩ := rt_any_scalar reg sk (d + 1) (by rfl) hv extra
      exact ⟨bs, hE, .inl hD⟩
    | str s =>
      obtain ⟨bs, hE, hD⟩ := rt_any_scalar reg sk (d + 1) (by rfl) hv extra
      exact ⟨bs, hE, .inl hD⟩
    | bin b =>
      obtain ⟨bs, hE, hD⟩ := rt_any_scalar reg sk (d + 1) (by rfl) hv extra
      exact ⟨bs, hE, .inl hD⟩
    | arr items =>
      simp only [validAt, Bool.and_eq_true, decide_eq_true_eq, List.all_eq_true] at hv
      obtain ⟨hlen, hmem⟩ := hv
      obtain ⟨body, hBody, hDec⟩ :=
        seq_rt (fun v => encodeVal false d v) (fun b => decodeVal reg sk d b) items
          (fun x hx e => ih x (hmem x hx) e) extra
      have hEnc : encodeVal false (d + 1) (.arr items) =
          (do
            let h ← arrHeader items.length
            let b ← encSeq (fun v => encodeVal false d v) items
            Except.ok (h ++ b)) := rfl
      by_cases c1 : items.length ≤ 15
      · refine ⟨[0x90 + items.length] ++ body, ?_, ?_⟩
        · rw [hEnc, arrHeader, if_pos c1, ok_bind, hBody, ok_bind]
        · rw [List.append_assoc, List.cons_append, List.nil_append, decodeVal_succ,
            dec_fixarr reg sk _ c1]
          rcases hDec with hDec | ⟨hP, hDec⟩
          · simp only [hDec, ok_bind]
            exact .inl (by trivial)
          · simp only [hDec]
            exact .inr ⟨hP, by trivial⟩
      · by_cases c2 : items.length ≤ 2 ^ 16 - 1
        · refine ⟨(0xdc :: beBytes 2 items.length) ++ body, ?_, ?_⟩
          · rw [hEnc, arrHeader, if_neg c1, if_pos c2, ok_bind, hBody, ok_bind]
          · have e : fromBE (beBytes 2 items.length) = items.length :=
              fromBE_beBytes_lt (by omega)
            rw [List.cons_append, List.cons_append, List.append_assoc, decodeVal_succ,
              dec_fixed reg sk _ (by omega) (by omega),
              dec_arr16 reg sk _ (beBytes_length 2 _), e]
            rcases hDec with hDec | ⟨hP, hDec⟩
            · simp only [hDec, ok_bind]
              exact .inl (by trivial)
            · simp only [hDec]
              exact .inr ⟨hP, by trivial⟩
        · refine ⟨(0xdd :: beBytes 4 items.length) ++ body, ?_, ?_⟩
          · rw [hEnc, arrHeader, if_neg c1, if_neg c2, if_pos hlen, ok_bind, hBody, ok_bind]
          · have e : fromBE (beBytes 4 items.length) = items.length :=
              fromBE_beBytes_lt (by omega)
            rw [List.cons_append, List.cons_append, List.append_assoc, decodeVal_succ,
              dec_fixed reg sk _ (by omega) (by omega),
              dec_arr32 reg sk _ (beBytes_length 4 _), e]
            rcases hDec with hDec | ⟨hP, hDec⟩
            · simp only [hDec, ok_bind]
              exact .inl (by trivial)
            · simp only [hDec]
              exact .inr ⟨hP, by trivial⟩
    | map pairs =>
      simp only [validAt, Bool.and_eq_true, decide_eq_true_eq, List.all_eq_true] at hv
      obtain ⟨hlen, hmem⟩ := hv
      obtain ⟨body, hBody, hDec⟩ :=
        pairs_rt sk (fun v => encodeVal false d v) (fun b => decodeVal reg sk d b) pairs
          (fun p hp e => ⟨ih p.1 (hmem p hp).1 e, ih p.2 (hmem p hp).2 e⟩) extra
      have hEnc : encodeVal false (d + 1) (.map pairs) =
          (do
            let h ← mapHeader pairs.length
            let b ← encPairs false (fun v => encodeVal false d v) pairs
            Except.ok (h ++ b)) := rfl
      by_cases c1 : pairs.length ≤ 15
      · refine ⟨[0x80 + pairs.length] ++ body, ?_, ?_⟩
        · rw [hEnc, mapHeader, if_pos c1, ok_bind, hBody, ok_bind]
        · rw [List.append_assoc, List.cons_append, List.nil_append, decodeVal_succ,
            dec_fixmap reg sk _ c1]
          rcases hDec with hDec | ⟨hP, hDec⟩
          · simp only [hDec, ok_bind]
            exact .inl (by trivial)
          · simp only [hDec]
            exact .inr ⟨hP, by trivial⟩
      · by_cases c2 : pairs.length ≤ 2 ^ 16 - 1
        · refine ⟨(0xde :: beBytes 2 pairs.length) ++ body, ?_, ?_⟩
          · rw [hEnc, mapHeader, if_neg c1, if_pos c2, ok_bind, hBody, ok_bind]
          · have e : fromBE (beBytes 2 pairs.length) = pairs.length :=
              fromBE_beBytes_lt (by omega)
            rw [List.cons_append, List.cons_append, List.append_assoc, decodeVal_succ,
              dec_fixed reg sk _ (by omega) (by omega),
              dec_map16 reg sk _ (beBytes_length 2 _), e]
            rcases hDec with hDec | ⟨hP, hDec⟩
            · simp only [hDec, ok_bind]
              exact .inl (by trivial)
            · simp only [hDec]
              exact .inr ⟨hP, by trivial⟩
        · refine ⟨(0xdf :: beBytes 4 pairs.length) ++ body, ?_, ?_⟩
          · rw [hEnc, mapHeader, if_neg c1, if_neg c2, if_pos hlen, ok_bind, hBody, ok_bind]
          · have e : fromBE (beBytes 4 pairs.length) = pairs.length :=
              fromBE_beBytes_lt (by omega)
            rw [List.cons_append, List.cons_append, List.append_assoc, decodeVal_succ,
              dec_fixed reg sk _ (by omega) (by omega),
              dec_map32 reg sk _ (beBytes_length 4 _), e]
            rcases hDec with hDec | ⟨hP, hDec⟩
            · simp only [hDec, ok_bind]
              exact .inl (by trivial)
            · simp only [hDec]
              exact .inr ⟨hP, by trivial⟩

theorem encode_decode {v : Value} (h : validAt maxDepth v = true) :
    ∃ bs, encode v = .ok bs ∧ decode bs = .ok v := by
  obtain ⟨bs, hE, hD⟩ := rt_main emptyReg false maxDepth v h []
  rcases hD with hD | ⟨hsk, _⟩
  · refine ⟨bs, hE, ?_⟩
    rw [List.append_nil] at hD
    show decodeFull emptyReg false bs = .ok v
    rw [decodeFull, hD]
    simp
  · cases hsk

theorem eqListWith_diag (f : Value → Value → Bool) (g : Value → Bool) :
    ∀ xs : List Value, (∀ x ∈ xs, f x x = !g x) → eqListWith f xs xs = !xs.any g := by
  intro xs
  induction xs with
  | nil => intro _; rfl
  | cons x rest ih =>
    intro h
    rw [eqListWith, h x (List.mem_cons_self _ _), ih (fun y hy => h y (List.mem_cons_of_mem _ hy)),
      List.any_cons]
    cases g x <;> cases rest.any g <;> rfl

theorem eqPairsWith_diag (f : Value → Value → Bool) (g : Value → Bool) :
    ∀ xs : List (Value × Value), (∀ x ∈ xs, f x.1 x.1 = !g x.1 ∧ f x.2 x.2 = !g x.2) →
      eqPairsWith f xs xs = !xs.any (fun p => g p.1 || g p.2) := by
  intro xs
  induction xs with
  | nil => intro _; rfl
  | cons x rest ih =>
    intro h
    rw [eqPairsWith, (h x (List.mem_cons_self _ _)).1, (h x (List.mem_cons_self _ _)).2,
      ih (fun y hy => h y (List.mem_cons_of_mem _ hy)), List.any_cons]
    cases g x.1 <;> cases g x.2 <;> cases rest.any (fun p => g p.1 || g p.2) <;> rfl

theorem pyEqAt_diag : ∀ (d : ℕ) (v : Value), validAt d v = true →
    pyEqAt d v v = !hasNaN d v := by
  intro d
  induction d with
  | zero =>
    intro v hv
    cases v with
    | nil => rfl
    | bool b => simp [pyEqAt, hasNaN]
    | int n => simp [pyEqAt, hasNaN]
    | float bits =>
      simp only [pyEqAt, hasNaN, floatEqBits]
      cases hn : isNaNBits bits <;> simp
    | str s => simp [pyEqAt, hasNaN]
    | bin b => simp [pyEqAt, hasNaN]
    | arr items => simp [validAt] at hv
    | map pairs => simp [validAt] at hv
  | succ d ih =>
    intro v hv
    cases v with
    | nil => rfl
    | bool b => simp [pyEqAt, hasNaN]
    | int n => simp [pyEqAt, hasNaN]
    | float bits =>
      simp only [pyEqAt, hasNaN, floatEqBits]
      cases hn : isNaNBits bits <;> simp
    | str s => simp [pyEqAt, hasNaN]
    | bin b => simp [pyEqAt, hasNaN]
    | arr items =>
      simp only [validAt, Bool.and_eq_true, decide_eq_true_eq, List.all_eq_true] at hv
      show eqListWith (fun a b => pyEqAt d a b) items items = !items.any (fun v => hasNaN d v)
      exact eqListWith_diag _ _ items (fun x hx => ih x (hv.2 x hx))
    | map pairs =>
      simp only [validAt, Bool.and_eq_true, decide_eq_true_eq, List.all_eq_true] at hv
      show eqPairsWith (fun a b => pyEqAt d a b) pairs pairs =
        !pairs.any (fun p => hasNaN d p.1 || hasNaN d p.2)
      refine eqPairsWith_diag _ _ pairs (fun p hp => ?_)
      have h2 := hv.2 p hp
      exact ⟨ih p.1 h2.1, ih p.2 h2.2⟩

theorem validAt_deepList : ∀ n d, n ≤ d → validAt d (deepList n) = true := by
  intro n
  induction n with
  | zero => intro d _; cases d <;> rfl
  | succ n ih =>
    intro d hle
    cases d with
    | zero => omega
    | succ d' =>
      show validAt (d' + 1) (.arr [deepList n]) = true
      simp only [validAt, Bool.and_eq_true, decide_eq_true_eq, List.all_eq_true]
      exact ⟨by norm_num, fun x hx => by
        rw [List.mem_singleton] at hx
        rw [hx]
        exact ih d' (by omega)⟩

theorem encodeVal_deepList_err : ∀ n d, d < n →
    encodeVal false d (deepList n) = .error .recursionError := by
  intro n
  induction n with
  | zero => intro d h; omega
  | succ n ih =>
    intro d h
    cases d with
    | zero => rfl
    | succ d' =>
      show encodeVal false (d' + 1) (.arr [deepList n]) = .error .recursionError
      have hE := ih d' (by omega)
      have hEnc : encodeVal false (d' + 1) (.arr [deepList n]) =
          (do
            let h ← arrHeader [deepList n].length
            let b ← encSeq (fun v => encodeVal false d' v) [deepList n]
            Except.ok (h ++ b)) := rfl
      rw [hEnc]
      show (do
        let h ← arrHeader 1
        let b ← encSeq (fun v => encodeVal false d' v) [deepList n]
        Except.ok (h ++ b)) = _
      rw [show arrHeader 1 = .ok [0x91] from rfl, ok_bind, encSeq, hE]
      rfl

/-- C1 (amended): for every value built from the supported kinds whose
strings are valid UTF-8, whose containers and strings fit the 32-bit
length fields, and whose nesting stays within the default depth limit
(all captured by `validAt maxDepth`), `decode (encode v)` succeeds and
returns a structurally equal value; the decoded graph is `==`-equal to
the original exactly when it contains no NaN, and a NaN float round-trips
bit-preserving yet compares `==`-unequal. -/
theorem c1_roundtrip : ∀ v : Value, validAt maxDepth v = true →
    ∃ bs, encode v = .ok bs ∧ decode bs = .ok v ∧
      (hasNaN maxDepth v = false → pyEqAt maxDepth v v = true) ∧
      (hasNaN maxDepth v = true → pyEqAt maxDepth v v = false) := by
  intro v hv
  obtain ⟨bs, hE, hD⟩ := encode_decode hv
  refine ⟨bs, hE, hD, ?_, ?_⟩ <;> intro hn <;> rw [pyEqAt_diag maxDepth v hv, hn] <;> rfl

/-- C1 counterexample: the claim quantifies over values "nested
arbitrarily", but a 1025-deep list — built from the supported kinds, as
`validAt 4000` certifies — fails to encode with RecursionError under the
default depth limit of 1024, and a string exceeding the 32-bit length
field fails with OverflowError, so `decode (encode v) == v` cannot hold
for every such value. -/
theorem c1_counterexample :
    validAt 4000 (deepList 1025) = true ∧
    encode (deepList 1025) = .error .recursionError ∧
    encode (.str (List.replicate (2 ^ 32) 97)) = .error .overflowError := by
  refine ⟨validAt_deepList 1025 4000 (by omega), encodeVal_deepList_err 1025 1024 (by omega), ?_⟩
  have hlen : (List.replicate (2 ^ 32) 97).length = 2 ^ 32 := List.length_replicate _ _
  have hEnc : encode (.str (List.replicate (2 ^ 32) 97)) =
      (do
        let h ← strHeader (List.replicate (2 ^ 32) 97).length
        Except.ok (h ++ List.replicate (2 ^ 32) 97)) := rfl
  rw [hEnc, hlen]
  rfl

/-- C1 witness: the amended claim applied to a concrete nested value
containing an integer, a string, and a NaN float. -/
theorem c1_witness :
    ∃ bs, encode (.arr [.int 5, .str [0x61], .float 0x7ff8000000000000]) = .ok bs ∧
      decode bs = .ok (.arr [.int 5, .str [0x61], .float 0x7ff8000000000000]) ∧
      (hasNaN maxDepth (.arr [.int 5, .str [0x61], .float 0x7ff8000000000000]) = false →
        pyEqAt maxDepth (.arr [.int 5, .str [0x61], .float 0x7ff8000000000000])
          (.arr [.int 5, .str [0x61], .float 0x7ff8000000000000]) = true) ∧
      (hasNaN maxDepth (.arr [.int 5, .str [0x61], .float 0x7ff8000000000000]) = true →
        pyEqAt maxDepth (.arr [.int 5, .str [0x61], .float 0x7ff8000000000000])
          (.arr [.int 5, .str [0x61], .float 0x7ff8000000000000]) = false) :=
  c1_roundtrip _ (by rfl)

/-- C3 (amended): one-shot decode of a buffer holding one complete
encoded Value followed by at least one extra byte does not return that
Value: it fails with ValueError, as the repository's tests require of
invalid encoded data. -/
theorem c3_trailing : ∀ (v : Value) (bs extra : List ℕ),
    validAt maxDepth v = true → encode v = .ok bs → extra ≠ [] →
    decode (bs ++ extra) = .error .valueError := by
  intro v bs extra hv hE hne
  obtain ⟨bs2, hE2, hD⟩ := rt_main emptyReg false maxDepth v hv extra
  rcases hD with hD | ⟨hsk, _⟩
  · have h3 : (Except.ok bs2 : Except Err (List ℕ)) = .ok bs := hE2.symm.trans hE
    have hbs : bs2 = bs := Except.ok.inj h3
    show decodeFull emptyReg false (bs ++ extra) = .error .valueError
    rw [decodeFull, ← hbs, hD]
    simp [hne]
  · cases hsk

/-- C3 counterexample: the claim states that decode of the two-byte
buffer 00 00 returns the integer 0; instead it fails with ValueError
(src/tests/regular.py line 65 expects exactly this). -/
theorem c3_counterexample :
    decode [0x00, 0x00] = .error .valueError ∧ decode [0x00, 0x00] ≠ .ok (.int 0) := by
  refine ⟨rfl, ?_⟩
  intro h
  rw [show decode [0x00, 0x00] = .error .valueError from rfl] at h
  exact Except.noConfusion h

/-- C3 witness: the amended claim applied to the encoding of 0 followed
by one trailing zero byte. -/
theorem c3_witness : decode ([0x00] ++ [0x00]) = .error .valueError :=
  c3_trailing (.int 0) [0x00] [0x00] rfl rfl (by simp)

/-- C5: encode fails with OverflowError exactly for integers outside
[-2^63, 2^64-1]; 2^64 and -2^63-1 overflow while the boundary values
2^64-1 and -2^63 encode successfully. -/
theorem c5_overflow :
    (∀ v : ℤ, encode (.int v) = .error .overflowError ↔
      (v < -(2 ^ 63) ∨ 2 ^ 64 - 1 < v)) ∧
    encode (.int (2 ^ 64)) = .error .overflowError ∧
    encode (.int (-(2 ^ 63) - 1)) = .error .overflowError ∧
    encode (.int (2 ^ 64 - 1)) = .ok [0xcf, 0xff, 0xff, 0xff, 0xff, 0xff, 0xff, 0xff, 0xff] ∧
    encode (.int (-(2 ^ 63))) = .ok [0xd3, 0x80, 0x00, 0x00, 0x00, 0x00, 0x00, 0x00, 0x00] := by
  refine ⟨?_, rfl, rfl, rfl, rfl⟩
  intro v
  constructor
  · intro hE
    by_contra hc
    push_neg at hc
    obtain ⟨bs, hE2, _⟩ := @rt_int emptyReg false none v (by omega) ([] : List ℕ)
    rw [show encode (.int v) = encInt v from rfl, hE2] at hE
    exact Except.noConfusion hE
  · intro h
    rw [show encode (.int v) = encInt v from rfl]
    rcases h with h | h
    · rw [encInt, if_neg (by omega), if_neg (by omega), if_pos (by omega), if_neg (by omega),
        if_neg (by omega), if_neg (by omega), if_neg (by omega)]
    · rw [encInt, if_neg (by omega), if_neg (by omega), if_neg (by omega), if_neg (by omega),
        if_neg (by omega), if_neg (by omega), if_neg (by omega)]

/-- C5 witness: the exactness applied at 2^100, an integer beyond the
64-bit range. -/
theorem c5_witness : encode (.int (2 ^ 100)) = .error .overflowError :=
  (c5_overflow.1 (2 ^ 100)).mpr (by omega)

/-- C2: for every integer in [-2^63, 2^64-1] the encoder emits the
minimal MessagePack integer form — there is a form that fits the value
whose byte length equals the emitted length, and every form that fits
the value is at least that long — and the eight boundary examples of the
spec encode to exactly the stated bytes. -/
theorem c2_minimal_int :
    (∀ v : ℤ, -(2 ^ 63) ≤ v → v ≤ 2 ^ 64 - 1 →
      ∃ bs, encode (.int v) = .ok bs ∧
        (∃ f : IntForm, f.fits v = true ∧ bs.length = f.lenBytes) ∧
        (∀ f : IntForm, f.fits v = true → bs.length ≤ f.lenBytes)) ∧
    encode (.int 0) = .ok [0x00] ∧
    encode (.int 127) = .ok [0x7f] ∧
    encode (.int 128) = .ok [0xcc, 0x80] ∧
    encode (.int (-1)) = .ok [0xff] ∧
    encode (.int (-32)) = .ok [0xe0] ∧
    encode (.int (-33)) = .ok [0xd0, 0xdf] ∧
    encode (.int 255) = .ok [0xcc, 0xff] ∧
    encode (.int 256) = .ok [0xcd, 0x01, 0x00] := by
  refine ⟨?_, rfl, rfl, rfl, rfl, rfl, rfl, rfl, rfl⟩
  intro v hlo hhi
  by_cases h1 : 0 ≤ v ∧ v ≤ 127
  · refine ⟨[v.toNat], by rw [show encode (.int v) = encInt v from rfl, encInt, if_pos h1],
      ⟨.posfix, by simp only [IntForm.fits, decide_eq_true_eq]; omega, rfl⟩, ?_⟩
    intro f hf
    cases f <;> simp [IntForm.fits, IntForm.lenBytes, beBytes_length] at hf ⊢ <;> omega
  by_cases h2 : -32 ≤ v ∧ v < 0
  · refine ⟨[(v + 256).toNat],
      by rw [show encode (.int v) = encInt v from rfl, encInt, if_neg h1, if_pos h2],
      ⟨.negfix, by simp only [IntForm.fits, decide_eq_true_eq]; omega, rfl⟩, ?_⟩
    intro f hf
    cases f <;> simp [IntForm.fits, IntForm.lenBytes, beBytes_length] at hf ⊢ <;> omega
  by_cases h3 : v < 0
  · by_cases h4 : -128 ≤ v
    · refine ⟨0xd0 :: beBytes 1 (v + 2 ^ 8).toNat,
        by rw [show encode (.int v) = encInt v from rfl, encInt, if_neg h1, if_neg h2,
          if_pos h3, if_pos h4],
        ⟨.i8, by simp only [IntForm.fits, decide_eq_true_eq]; omega,
          by simp [beBytes_length, IntForm.lenBytes]⟩, ?_⟩
      intro f hf
      cases f <;> simp [IntForm.fits, IntForm.lenBytes, beBytes_length] at hf ⊢ <;> omega
    by_cases h5 : -(2 ^ 15) ≤ v
    · refine ⟨0xd1 :: beBytes 2 (v + 2 ^ 16).toNat,
        by rw [show encode (.int v) = encInt v from rfl, encInt, if_neg h1, if_neg h2,
          if_pos h3, if_neg h4, if_pos h5],
        ⟨.i16, by simp only [IntForm.fits, decide_eq_true_eq]; omega,
          by simp [beBytes_length, IntForm.lenBytes]⟩, ?_⟩
      intro f hf
      cases f <;> simp [IntForm.fits, IntForm.lenBytes, beBytes_length] at hf ⊢ <;> omega
    by_cases h6 : -(2 ^ 31) ≤ v
    · refine ⟨0xd2 :: beBytes 4 (v + 2 ^ 32).toNat,
        by rw [show encode (.int v) = encInt v from rfl, encInt, if_neg h1, if_neg h2,
          if_pos h3, if_neg h4, if_neg h5, if_pos h6],
        ⟨.i32, by simp only [IntForm.fits, decide_eq_true_eq]; omega,
          by simp [beBytes_length, IntForm.lenBytes]⟩, ?_⟩
      intro f hf
      cases f <;> simp [IntForm.fits, IntForm.lenBytes, beBytes_length] at hf ⊢ <;> omega
    · refine ⟨0xd3 :: beBytes 8 (v + 2 ^ 64).toNat,
        by rw [show encode (.int v) = encInt v from rfl, encInt, if_neg h1, if_neg h2,
          if_pos h3, if_neg h4, if_neg h5, if_neg h6, if_pos hlo],
        ⟨.i64, by simp only [IntForm.fits, decide_eq_true_eq]; omega,
          by simp [beBytes_length, IntForm.lenBytes]⟩, ?_⟩
      intro f hf
      cases f <;> simp [IntForm.fits, IntForm.lenBytes, beBytes_length] at hf ⊢ <;> omega
  · by_cases h7 : v ≤ 2 ^ 8 - 1
    · refine ⟨0xcc :: beBytes 1 v.toNat,
        by rw [show encode (.int v) = encInt v from rfl, encInt, if_neg h1, if_neg h2,
          if_neg h3, if_pos h7],
        ⟨.u8, by simp only [IntForm.fits, decide_eq_true_eq]; omega,
          by simp [beBytes_length, IntForm.lenBytes]⟩, ?_⟩
      intro f hf
      cases f <;> simp [IntForm.fits, IntForm.lenBytes, beBytes_length] at hf ⊢ <;> omega
    by_cases h8 : v ≤ 2 ^ 16 - 1
    · refine ⟨0xcd :: beBytes 2 v.toNat,
        by rw [show encode (.int v) = encInt v from rfl, encInt, if_neg h1, if_neg h2,
          if_neg h3, if_neg h7, if_pos h8],
        ⟨.u16, by simp only [IntForm.fits, decide_eq_true_eq]; omega,
          by simp [beBytes_length, IntForm.lenBytes]⟩, ?_⟩
      intro f hf
      cases f <;> simp [IntForm.fits, IntForm.lenBytes, beBytes_length] at hf ⊢ <;> omega
    by_cases h9 : v ≤ 2 ^ 32 - 1
    · refine ⟨0xce :: beBytes 4 v.toNat,
        by rw [show encode (.int v) = encInt v from rfl, encInt, if_neg h1, if_neg h2,
          if_neg h3, if_neg h7, if_neg h8, if_pos h9],
        ⟨.u32, by simp only [IntForm.fits, decide_eq_true_eq]; omega,
          by simp [beBytes_length, IntForm.lenBytes]⟩, ?_⟩
      intro f hf
      cases f <;> simp [IntForm.fits, IntForm.lenBytes, beBytes_length] at hf ⊢ <;> omega
    · refine ⟨0xcf :: beBytes 8 v.toNat,
        by rw [show encode (.int v) = encInt v from rfl, encInt, if_neg h1, if_neg h2,
          if_neg h3, if_neg h7, if_neg h8, if_neg h9, if_pos hhi],
        ⟨.u64, by simp only [IntForm.fits, decide_eq_true_eq]; omega,
          by simp [beBytes_length, IntForm.lenBytes]⟩, ?_⟩
      intro f hf
      cases f <;> simp [IntForm.fits, IntForm.lenBytes, beBytes_length] at hf ⊢ <;> omega

/-- C2 witness: minimality applied at 300, which requires the two-byte
UInt16 payload. -/
theorem c2_witness :
    ∃ bs, encode (.int 300) = .ok bs ∧
      (∃ f : IntForm, f.fits 300 = true ∧ bs.length = f.lenBytes) ∧
      (∀ f : IntForm, f.fits 300 = true → bs.length ≤ f.lenBytes) :=
  c2_minimal_int.1 300 (by omega) (by omega)

theorem arrHeader_ok {L : ℕ} (h : L ≤ 2 ^ 32 - 1) : ∃ hd, arrHeader L = .ok hd := by
  unfold arrHeader
  split_ifs <;> first | exact ⟨_, rfl⟩ | omega

theorem mapHeader_ok {L : ℕ} (h : L ≤ 2 ^ 32 - 1) : ∃ hd, mapHeader L = .ok hd := by
  unfold mapHeader
  split_ifs <;> first | exact ⟨_, rfl⟩ | omega

theorem enc_scalar_ok (sk : Bool) (d : ℕ) :
    ∀ {v : Value}, isScalar v = true → validAt d v = true →
      ∃ bs, encodeVal sk d v = .ok bs := by
  intro v hs hv
  cases v with
  | nil => exact ⟨[0xc0], by cases d <;> rfl⟩
  | bool b => exact ⟨if b then [0xc3] else [0xc2], by cases b <;> cases d <;> rfl⟩
  | int n =>
    have hr : -(2 ^ 63) ≤ n ∧ n ≤ 2 ^ 64 - 1 := by
      have h2 := hv
      cases d <;> simp [validAt] at h2 <;> exact h2
    obtain ⟨bs, hE, _⟩ := @rt_int emptyReg false none n hr []
    exact ⟨bs, by cases d <;> exact hE⟩
  | float bits => exact ⟨0xcb :: beBytes 8 bits, by cases d <;> rfl⟩
  | str s =>
    have hb : utf8Valid s = true ∧ s.length ≤ 2 ^ 32 - 1 := by
      have h2 := hv
      cases d <;> simp [validAt] at h2 <;> exact h2
    obtain ⟨hd, hHd, _⟩ := rt_str emptyReg false none hb.1 hb.2 []
    refine ⟨hd ++ s, ?_⟩
    have he : encodeVal sk d (.str s) =
        (do
          let h ← strHeader s.length
          Except.ok (h ++ s)) := by cases d <;> rfl
    rw [he, hHd, ok_bind]
  | bin b =>
    have hb : b.length ≤ 2 ^ 32 - 1 := by
      have h2 := hv
      cases d <;> simp [validAt] at h2 <;> exact h2
    obtain ⟨hd, hHd, _⟩ := rt_bin emptyReg false none hb []
    refine ⟨hd ++ b, ?_⟩
    have he : encodeVal sk d (.bin b) =
        (do
          let h ← binHeader b.length
          Except.ok (h ++ b)) := by cases d <;> rfl
    rw [he, hHd, ok_bind]
  | arr items => simp [isScalar] at hs
  | map pairs => simp [isScalar] at hs

theorem seq_ok_or (f : Value → Except Err (List ℕ)) :
    ∀ items : List Value, (∀ x ∈ items, (∃ bs, f x = .ok bs) ∨ f x = .error .typeError) →
      (∃ bs, encSeq f items = .ok bs) ∨ encSeq f items = .error .typeError := by
  intro items
  induction items with
  | nil => intro _; exact .inl ⟨[], rfl⟩
  | cons x rest ih =>
    intro h
    rcases h x (List.mem_cons_self _ _) with ⟨bx, hbx⟩ | hbx
    · rcases ih (fun y hy => h y (List.mem_cons_of_mem _ hy)) with ⟨br, hbr⟩ | hbr
      · exact .inl ⟨bx ++ br, by rw [encSeq, hbx, ok_bind, hbr, ok_bind]⟩
      · refine .inr ?_
        rw [encSeq, hbx, ok_bind, hbr]
        rfl
    · refine .inr ?_
      rw [encSeq, hbx]
      rfl

theorem pairs_ok_or (sk : Bool) (f : Value → Except Err (List ℕ)) :
    ∀ pairs : List (Value × Value),
      (∀ p ∈ pairs, ((∃ bs, f p.1 = .ok bs) ∨ f p.1 = .error .typeError) ∧
        ((∃ bs, f p.2 = .ok bs) ∨ f p.2 = .error .typeError)) →
      (∃ bs, encPairs sk f pairs = .ok bs) ∨ encPairs sk f pairs = .error .typeError := by
  intro pairs
  induction pairs with
  | nil => intro _; exact .inl ⟨[], rfl⟩
  | cons p rest ih =>
    intro h
    obtain ⟨k, v⟩ := p
    have hkv := h (k, v) (List.mem_cons_self _ _)
    have hEq : encPairs sk f ((k, v) :: rest) =
        (if sk && !isStr k then .error .typeError
         else do
          let bk ← f k
          let bv ← f v
          let bs ← encPairs sk f rest
          Except.ok (bk ++ bv ++ bs)) := rfl
    by_cases hc : (sk && !isStr k) = true
    · refine .inr ?_
      rw [hEq, if_pos hc]
    · rw [Bool.not_eq_true] at hc
      rcases hkv.1 with ⟨bk, hbk⟩ | hbk
      · rcases hkv.2 with ⟨bv, hbv⟩ | hbv
        · rcases ih (fun y hy => h y (List.mem_cons_of_mem _ hy)) with ⟨br, hbr⟩ | hbr
          · refine .inl ⟨bk ++ bv ++ br, ?_⟩
            rw [hEq, hc]
            simp only [Bool.false_eq_true, if_false]
            rw [hbk, ok_bind, hbv, ok_bind, hbr, ok_bind]
          · refine .inr ?_
            rw [hEq, hc]
            simp only [Bool.false_eq_true, if_false]
            rw [hbk, ok_bind, hbv, ok_bind, hbr]
            rfl
        · refine .inr ?_
          rw [hEq, hc]
          simp only [Bool.false_eq_true, if_false]
          rw [hbk, ok_bind, hbv]
          rfl
      · refine .inr ?_
        rw [hEq, hc]
        simp only [Bool.false_eq_true, if_false]
        rw [hbk]
        rfl

theorem enc_ok_or_te (sk : Bool) : ∀ (d : ℕ) (v : Value), validAt d v = true →
    (∃ bs, encodeVal sk d v = .ok bs) ∨ encodeVal sk d v = .error .typeError := by
  intro d
  induction d with
  | zero =>
    intro v hv
    refine .inl (enc_scalar_ok sk 0 ?_ hv)
    cases v <;> simp_all [isScalar, validAt]
  | succ d ih =>
    intro v hv
    cases v with
    | arr items =>
      simp only [validAt, Bool.and_eq_true, decide_eq_true_eq, List.all_eq_true] at hv
      obtain ⟨hd, hHd⟩ := arrHeader_ok hv.1
      have hEq : encodeVal sk (d + 1) (.arr items) =
          (do
            let h ← arrHeader items.length
            let b ← encSeq (fun v => encodeVal sk d v) items
            Except.ok (h ++ b)) := rfl
      rcases seq_ok_or _ items (fun x hx => ih x (hv.2 x hx)) with ⟨body, hB⟩ | hB
      · exact .inl ⟨hd ++ body, by rw [hEq, hHd, ok_bind, hB, ok_bind]⟩
      · refine .inr ?_
        rw [hEq, hHd, ok_bind, hB]
        rfl
    | map pairs =>
      simp only [validAt, Bool.and_eq_true, decide_eq_true_eq, List.all_eq_true] at hv
      obtain ⟨hd, hHd⟩ := mapHeader_ok hv.1
      have hEq : encodeVal sk (d + 1) (.map pairs) =
          (do
            let h ← mapHeader pairs.length
            let b ← encPairs sk (fun v => encodeVal sk d v) pairs
            Except.ok (h ++ b)) := rfl
      rcases pairs_ok_or sk _ pairs
          (fun p hp => ⟨ih p.1 (hv.2 p hp).1, ih p.2 (hv.2 p hp).2⟩) with ⟨body, hB⟩ | hB
      · exact .inl ⟨hd ++ body, by rw [hEq, hHd, ok_bind, hB, ok_bind]⟩
      · refine .inr ?_
        rw [hEq, hHd, ok_bind, hB]
        rfl
    | nil => exact .inl (enc_scalar_ok sk (d + 1) (by rfl) hv)
    | bool b => exact .inl (enc_scalar_ok sk (d + 1) (by rfl) hv)
    | int n => exact .inl (enc_scalar_ok sk (d + 1) (by rfl) hv)
    | float bits => exact .inl (enc_scalar_ok sk (d + 1) (by rfl) hv)
    | str st => exact .inl (enc_scalar_ok sk (d + 1) (by rfl) hv)
    | bin b => exact .inl (enc_scalar_ok sk (d + 1) (by rfl) hv)

theorem encPairs_bad (f : Value → Except Err (List ℕ)) :
    ∀ pairs : List (Value × Value),
      (∀ p ∈ pairs, ((∃ bs, f p.1 = .ok bs) ∨ f p.1 = .error .typeError) ∧
        ((∃ bs, f p.2 = .ok bs) ∨ f p.2 = .error .typeError)) →
      (∃ p ∈ pairs, isStr p.1 = false) →
      encPairs true f pairs = .error .typeError := by
  intro pairs
  induction pairs with
  | nil =>
    intro _ hbad
    obtain ⟨p, hp, _⟩ := hbad
    exact absurd hp (List.not_mem_nil p)
  | cons p rest ih =>
    intro h hbad
    obtain ⟨k, v⟩ := p
    have hEq : encPairs true f ((k, v) :: rest) =
        (if true && !isStr k then .error .typeError
         else do
          let bk ← f k
          let bv ← f v
          let bs ← encPairs true f rest
          Except.ok (bk ++ bv ++ bs)) := rfl
    by_cases hk : isStr k = true
    · have hbadr : ∃ p ∈ rest, isStr p.1 = false := by
        obtain ⟨q, hq, hqbad⟩ := hbad
        rcases List.mem_cons.mp hq with hq1 | hq2
        · rw [hq1] at hqbad
          rw [hk] at hqbad
          exact absurd hqbad (by simp)
        · exact ⟨q, hq2, hqbad⟩
      rw [hEq, if_neg (by simp [hk])]
      have hkv := h (k, v) (List.mem_cons_self _ _)
      rcases hkv.1 with ⟨bk, hbk⟩ | hbk
      · rcases hkv.2 with ⟨bv, hbv⟩ | hbv
        · rw [hbk, ok_bind, hbv, ok_bind,
            ih (fun y hy => h y (List.mem_cons_of_mem _ hy)) hbadr]
          rfl
        · rw [hbk, ok_bind, hbv]
          rfl
      · rw [hbk]
        rfl
    · rw [Bool.not_eq_true] at hk
      rw [hEq, if_pos (by rw [hk]; rfl)]

theorem decPairs_bad (encF : Value → Except Err (List ℕ))
    (decF : List ℕ → Except Err (Value × List ℕ)) :
    ∀ pairs : List (Value × Value),
      (∀ p ∈ pairs, ∀ e : List ℕ,
        (∃ bs, encF p.1 = .ok bs ∧
          (decF (bs ++ e) = .ok (p.1, e) ∨ decF (bs ++ e) = .error .typeError)) ∧
        (∃ bs, encF p.2 = .ok bs ∧
          (decF (bs ++ e) = .ok (p.2, e) ∨ decF (bs ++ e) = .error .typeError))) →
      (∃ p ∈ pairs, isStr p.1 = false) →
      ∀ body extra, encPairs false encF pairs = .ok body →
        decPairs true decF pairs.length (body ++ extra) = .error .typeError := by
  intro pairs
  induction pairs with
  | nil =>
    intro _ hbad
    obtain ⟨p, hp, _⟩ := hbad
    exact absurd hp (List.not_mem_nil p)
  | cons p rest ih =>
    intro h hbad body extra hBody
    obtain ⟨k, v⟩ := p
    have hEq : encPairs false encF ((k, v) :: rest) =
        (do
          let bk ← encF k
          let bv ← encF v
          let bs ← encPairs false encF rest
          Except.ok (bk ++ bv ++ bs)) := rfl
    rw [hEq] at hBody
    cases hfk : encF k with
    | error e =>
      rw [hfk] at hBody
      exact Except.noConfusion hBody
    | ok bk =>
      rw [hfk, ok_bind] at hBody
      cases hfv : encF v with
      | error e =>
        rw [hfv] at hBody
        exact Except.noConfusion hBody
      | ok bv =>
        rw [hfv, ok_bind] at hBody
        cases hfr : encPairs false encF rest with
        | error e =>
          rw [hfr] at hBody
          exact Except.noConfusion hBody
        | ok brest =>
          rw [hfr, ok_bind] at hBody
          have hb : body = bk ++ bv ++ brest := (Except.ok.inj hBody).symm
          subst hb
          obtain ⟨bsk, hbsk, hdk⟩ := (h (k, v) (List.mem_cons_self _ _)
            (bv ++ (brest ++ extra))).1
          have hbk2 : bsk = bk := Except.ok.inj (hbsk.symm.trans hfk)
          rw [hbk2] at hdk
          rw [List.length_cons, decPairs]
          have harr : bk ++ bv ++ brest ++ extra = bk ++ (bv ++ (brest ++ extra)) := by
            simp [List.append_assoc]
          rw [harr]
          rcases hdk with hdk | hdk
          · simp only [hdk, ok_bind]
            by_cases hk : isStr k = true
            · have hbadr : ∃ p ∈ rest, isStr p.1 = false := by
                obtain ⟨q, hq, hqbad⟩ := hbad
                rcases List.mem_cons.mp hq with hq1 | hq2
                · rw [hq1] at hqbad
                  rw [hk] at hqbad
                  exact absurd hqbad (by simp)
                · exact ⟨q, hq2, hqbad⟩
              rw [hk]
              simp only [Bool.not_true, Bool.and_false, Bool.false_eq_true, if_false]
              obtain ⟨bsv, hbsv, hdv⟩ := (h (k, v) (List.mem_cons_self _ _)
                (brest ++ extra)).2
              have hbv2 : bsv = bv := Except.ok.inj (hbsv.symm.trans hfv)
              rw [hbv2] at hdv
              rcases hdv with hdv | hdv
              · simp only [hdv, ok_bind]
                rw [ih (fun y hy e => h y (List.mem_cons_of_mem _ hy) e) hbadr brest extra hfr]
                rfl
              · simp only [hdv]
                rfl
            · rw [Bool.not_eq_true] at hk
              rw [hk]
              rfl
          · simp only [hdk]
            rfl

theorem c6_helper_enc : ∀ (d : ℕ) (pairs : List (Value × Value)),
    validAt (d + 1) (.map pairs) = true → (∃ p ∈ pairs, isStr p.1 = false) →
    encodeVal true (d + 1) (.map pairs) = .error .typeError := by
  intro d pairs hv hbad
  simp only [validAt, Bool.and_eq_true, decide_eq_true_eq, List.all_eq_true] at hv
  obtain ⟨hd, hHd⟩ := mapHeader_ok hv.1
  have hEq : encodeVal true (d + 1) (.map pairs) =
      (do
        let h ← mapHeader pairs.length
        let b ← encPairs true (fun v => encodeVal true d v) pairs
        Except.ok (h ++ b)) := rfl
  rw [hEq, hHd, ok_bind, encPairs_bad _ pairs
    (fun p hp => ⟨enc_ok_or_te true d p.1 (hv.2 p hp).1, enc_ok_or_te true d p.2 (hv.2 p hp).2⟩)
    hbad]
  rfl

theorem c6_helper_dec : ∀ (d : ℕ) (pairs : List (Value × Value)) (reg : Reg),
    validAt (d + 1) (.map pairs) = true → (∃ p ∈ pairs, isStr p.1 = false) →
    ∀ bs extra, encodeVal false (d + 1) (.map pairs) = .ok bs →
      decodeVal reg true (d + 1) (bs ++ extra) = .error .typeError := by
  intro d pairs reg hv hbad bs extra hE
  simp only [validAt, Bool.and_eq_true, decide_eq_true_eq, List.all_eq_true] at hv
  have hED : ∀ p ∈ pairs, ∀ e : List ℕ,
      (∃ bsk, (fun v => encodeVal false d v) p.1 = .ok bsk ∧
        ((fun b => decodeVal reg true d b) (bsk ++ e) = .ok (p.1, e) ∨
         (fun b => decodeVal reg true d b) (bsk ++ e) = .error .typeError)) ∧
      (∃ bsv, (fun v => encodeVal false d v) p.2 = .ok bsv ∧
        ((fun b => decodeVal reg true d b) (bsv ++ e) = .ok (p.2, e) ∨
         (fun b => decodeVal reg true d b) (bsv ++ e) = .error .typeError)) := by
    intro p hp e
    obtain ⟨bsk, hE1, hD1⟩ := rt_main reg true d p.1 (hv.2 p hp).1 e
    obtain ⟨bsv, hE2, hD2⟩ := rt_main reg true d p.2 (hv.2 p hp).2 e
    exact ⟨⟨bsk, hE1, hD1.imp id And.right⟩, ⟨bsv, hE2, hD2.imp id And.right⟩⟩
  have hEq : encodeVal false (d + 1) (.map pairs) =
      (do
        let h ← mapHeader pairs.length
        let b ← encPairs false (fun v => encodeVal false d v) pairs
        Except.ok (h ++ b)) := rfl
  rw [hEq] at hE
  by_cases c1 : pairs.length ≤ 15
  · rw [mapHeader, if_pos c1, ok_bind] at hE
    cases hB : encPairs false (fun v => encodeVal false d v) pairs with
    | error e =>
      rw [hB] at hE
      exact Except.noConfusion hE
    | ok body =>
      rw [hB, ok_bind] at hE
      have hbs : bs = [0x80 + pairs.length] ++ body := (Except.ok.inj hE).symm
      subst hbs
      rw [List.append_assoc, List.cons_append, List.nil_append, decodeVal_succ,
        dec_fixmap reg true _ c1, decPairs_bad _ _ pairs hED hbad body extra hB]
      rfl
  · by_cases c2 : pairs.length ≤ 2 ^ 16 - 1
    · rw [mapHeader, if_neg c1, if_pos c2, ok_bind] at hE
      cases hB : encPairs false (fun v => encodeVal false d v) pairs with
      | error e =>
        rw [hB] at hE
        exact Except.noConfusion hE
      | ok body =>
        rw [hB, ok_bind] at hE
        have hbs : bs = (0xde :: beBytes 2 pairs.length) ++ body := (Except.ok.inj hE).symm
        subst hbs
        have e2 : fromBE (beBytes 2 pairs.length) = pairs.length := fromBE_beBytes_lt (by omega)
        rw [List.cons_append, List.cons_append, List.append_assoc, decodeVal_succ,
          dec_fixed reg true _ (by omega) (by omega), dec_map16 reg true _ (beBytes_length 2 _),
          e2, decPairs_bad _ _ pairs hED hbad body extra hB]
        rfl
    · rw [mapHeader, if_neg c1, if_neg c2, if_pos hv.1, ok_bind] at hE
      cases hB : encPairs false (fun v => encodeVal false d v) pairs with
      | error e =>
        rw [hB] at hE
        exact Except.noConfusion hE
      | ok body =>
        rw [hB, ok_bind] at hE
        have hbs : bs = (0xdf :: beBytes 4 pairs.length) ++ body := (Except.ok.inj hE).symm
        subst hbs
        have e2 : fromBE (beBytes 4 pairs.length) = pairs.length := fromBE_beBytes_lt (by omega)
        rw [List.cons_append, List.cons_append, List.append_assoc, decodeVal_succ,
          dec_fixed reg true _ (by omega) (by omega), dec_map32 reg true _ (beBytes_length 4 _),
          e2, decPairs_bad _ _ pairs hED hbad body extra hB]
        rfl

/-- C6: with `str_keys=True`, encoding a map holding a non-string key
fails with TypeError, and decoding the default-options encoding of such
a map with `str_keys=True` fails with TypeError; the same map without
`str_keys` encodes successfully and round-trips. -/
theorem c6_str_keys : ∀ pairs : List (Value × Value),
    validAt maxDepth (.map pairs) = true →
    (∃ p ∈ pairs, isStr p.1 = false) →
    encodeFull true (.map pairs) = .error .typeError ∧
    (∀ bs, encodeFull false (.map pairs) = .ok bs →
      decodeFull emptyReg true bs = .error .typeError) ∧
    (∃ bs, encodeFull false (.map pairs) = .ok bs ∧
      decodeFull emptyReg false bs = .ok (.map pairs)) := by
  intro pairs hv hbad
  have hv2 : validAt (1023 + 1) (.map pairs) = true := hv
  refine ⟨c6_helper_enc 1023 pairs hv2 hbad, ?_, ?_⟩
  · intro bs hE
    have hD := c6_helper_dec 1023 pairs emptyReg hv2 hbad bs [] hE
    rw [List.append_nil] at hD
    have hD2 : decodeVal emptyReg true maxDepth bs = .error .typeError := hD
    show decodeFull emptyReg true bs = .error .typeError
    rw [decodeFull, hD2]
  · exact encode_decode hv

/-- C6 witness: the claim applied to the map with the single pair
`{1: 2}` of the tests. -/
theorem c6_witness :
    encodeFull true (.map [(.int 1, .int 2)]) = .error .typeError ∧
    (∀ bs, encodeFull false (.map [(.int 1, .int 2)]) = .ok bs →
      decodeFull emptyReg true bs = .error .typeError) ∧
    (∃ bs, encodeFull false (.map [(.int 1, .int 2)]) = .ok bs ∧
      decodeFull emptyReg false bs = .ok (.map [(.int 1, .int 2)])) :=
  c6_str_keys [(.int 1, .int 2)] (by rfl)
    ⟨(.int 1, .int 2), List.mem_singleton_self _, rfl⟩

theorem extIdOfByte_mod {i : ℤ} (h1 : -128 ≤ i) (h2 : i ≤ 127) :
    extIdOfByte (i % 256).toNat = i := by
  rw [extIdOfByte]
  split_ifs <;> omega

theorem decExtPayload_none (reg : Reg) {i : ℤ} (idb : ℕ) (pl rest : List ℕ)
    (hid : extIdOfByte idb = i) (hreg : reg i = none) :
    decExtPayload reg pl.length (idb :: (pl ++ rest)) = .error .typeError := by
  have h1 : readN 1 ([idb] ++ (pl ++ rest)) = .ok ([idb], pl ++ rest) := readN_exact rfl
  have h2 : readN pl.length (pl ++ rest) = .ok (pl, rest) := readN_exact rfl
  rw [decExtPayload, show idb :: (pl ++ rest) = [idb] ++ (pl ++ rest) from rfl]
  simp only [h1, ok_bind, h2, fromBE_one, hid, extDecode, hreg]
  rfl

theorem c4_helper : ∀ (reg : Reg) (sk : Bool) (d : ℕ) (i : ℤ) (pl bs : List ℕ),
    -128 ≤ i → i ≤ 127 → reg i = none → extBytes i pl = .ok bs →
    decodeVal reg sk d bs = .error .typeError := by
  intro reg sk d i pl bs h1 h2 hreg hB
  have hid : extIdOfByte (i % 256).toNat = i := extIdOfByte_mod h1 h2
  have hplnil : ∀ L : ℕ, pl.length = L →
      decExtPayload reg L ((i % 256).toNat :: pl) = .error .typeError := by
    intro L hL
    rw [← hL, show ((i % 256).toNat :: pl) = (i % 256).toNat :: (pl ++ []) from by simp]
    exact decExtPayload_none reg _ pl [] hid hreg
  rw [extBytes] at hB
  split_ifs at hB with c1 c2 c3 c4 c5 c6 c7 c8
  · have hbs : bs = 0xd4 :: (i % 256).toNat :: pl := (Except.ok.inj hB).symm
    subst hbs
    rw [decodeVal_eq, dec_fixed reg sk _ (by omega) (by omega), decodeFixed, ← c1]
    exact hplnil pl.length rfl
  · have hbs : bs = 0xd5 :: (i % 256).toNat :: pl := (Except.ok.inj hB).symm
    subst hbs
    rw [decodeVal_eq, dec_fixed reg sk _ (by omega) (by omega), decodeFixed, ← c2]
    exact hplnil pl.length rfl
  · have hbs : bs = 0xd6 :: (i % 256).toNat :: pl := (Except.ok.inj hB).symm
    subst hbs
    rw [decodeVal_eq, dec_fixed reg sk _ (by omega) (by omega), decodeFixed, ← c3]
    exact hplnil pl.length rfl
  · have hbs : bs = 0xd7 :: (i % 256).toNat :: pl := (Except.ok.inj hB).symm
    subst hbs
    rw [decodeVal_eq, dec_fixed reg sk _ (by omega) (by omega), decodeFixed, ← c4]
    exact hplnil pl.length rfl
  · have hbs : bs = 0xd8 :: (i % 256).toNat :: pl := (Except.ok.inj hB).symm
    subst hbs
    rw [decodeVal_eq, dec_fixed reg sk _ (by omega) (by omega), decodeFixed, ← c5]
    exact hplnil pl.length rfl
  · have hbs : bs = 0xc7 :: pl.length :: (i % 256).toNat :: pl := (Except.ok.inj hB).symm
    subst hbs
    rw [decodeVal_eq, dec_fixed reg sk _ (by omega) (by omega),
      show (pl.length :: (i % 256).toNat :: pl) = [pl.length] ++ ((i % 256).toNat :: pl)
        from rfl,
      @dec_ext8 reg sk _ [pl.length] rfl ((i % 256).toNat :: pl), fromBE_one]
    exact hplnil pl.length rfl
  · have hbs : bs = 0xc8 :: (beBytes 2 pl.length ++ (i % 256).toNat :: pl) :=
      (Except.ok.inj hB).symm
    subst hbs
    have e : fromBE (beBytes 2 pl.length) = pl.length := fromBE_beBytes_lt (by omega)
    rw [decodeVal_eq, dec_fixed reg sk _ (by omega) (by omega),
      dec_ext16 reg sk _ (beBytes_length 2 _), e]
    exact hplnil pl.length rfl
  · have hbs : bs = 0xc9 :: (beBytes 4 pl.length ++ (i % 256).toNat :: pl) :=
      (Except.ok.inj hB).symm
    subst hbs
    have e : fromBE (beBytes 4 pl.length) = pl.length := fromBE_beBytes_lt (by omega)
    rw [decodeVal_eq, dec_fixed reg sk _ (by omega) (by omega),
      dec_ext32 reg sk _ (beBytes_length 4 _), e]
    exact hplnil pl.length rfl

/-- C4 (amended): decoding an Ext-tagged value whose ext id has no
decoder registered in the registry in effect fails with TypeError, as
the repository's tests require (the spec's ValueError does not match the
tested behaviour). -/
theorem c4_ext_unknown : ∀ (reg : Reg) (sk : Bool) (i : ℤ) (pl bs : List ℕ),
    -128 ≤ i → i ≤ 127 → reg i = none → extBytes i pl = .ok bs →
    decodeFull reg sk bs = .error .typeError := by
  intro reg sk i pl bs h1 h2 hreg hB
  have hD := c4_helper reg sk maxDepth i pl bs h1 h2 hreg hB
  rw [decodeFull, hD]

/-- C4 counterexample: decoding the fixext1 value with id 1 and one
payload byte against a registry with no decoders fails with TypeError,
not ValueError as the claim states. -/
theorem c4_counterexample :
    decodeFull emptyReg false [0xd4, 0x01, 0x00] = .error .typeError ∧
    decodeFull emptyReg false [0xd4, 0x01, 0x00] ≠ .error .valueError := by
  refine ⟨rfl, ?_⟩
  intro h
  rw [show decodeFull emptyReg false [0xd4, 0x01, 0x00] = .error .typeError from rfl] at h
  exact Err.noConfusion (Except.error.inj h)

/-- C4 witness: the amended claim applied to ext id 1 with a one-byte
payload and the empty registry. -/
theorem c4_witness : decodeFull emptyReg false [0xd4, 0x01, 0x00] = .error .typeError :=
  c4_ext_unknown emptyReg false 1 [0x00] [0xd4, 0x01, 0x00] (by omega) (by omega) rfl rfl

/-- C8: byte-array and byte-view objects over a byte buffer encode to
the same Bin encoding as the raw bytes, which decodes back to an owned
bytes value; the tuple-like sequence encodes exactly as the list-like
one, decoding back to the list-like Array. -/
theorem c8_bytes_like :
    (∀ b : List ℕ, b.length ≤ 2 ^ 32 - 1 →
      encode (pyBytesLikeToValue (.byteArray b)) = encode (pyBytesLikeToValue (.bytes b)) ∧
      encode (pyBytesLikeToValue (.memoryView b)) = encode (pyBytesLikeToValue (.bytes b)) ∧
      ∃ bs, encode (pyBytesLikeToValue (.bytes b)) = .ok bs ∧ decode bs = .ok (.bin b)) ∧
    (∀ items : List Value, validAt maxDepth (.arr items) = true →
      encode (pySeqToValue (.tuple items)) = encode (pySeqToValue (.list items)) ∧
      ∃ bs, encode (pySeqToValue (.tuple items)) = .ok bs ∧ decode bs = .ok (.arr items)) := by
  constructor
  · intro b hb
    refine ⟨rfl, rfl, ?_⟩
    exact encode_decode (show validAt maxDepth (.bin b) = true by
      simp only [validAt, decide_eq_true_eq]
      exact hb)
  · intro items hv
    exact ⟨rfl, encode_decode (show validAt maxDepth (.arr items) = true from hv)⟩

/-- C8 witness: the claim applied to the three-byte buffer 01 02 03 and
to the one-element tuple (1,). -/
theorem c8_witness :
    (encode (pyBytesLikeToValue (.byteArray [1, 2, 3])) =
        encode (pyBytesLikeToValue (.bytes [1, 2, 3])) ∧
      encode (pyBytesLikeToValue (.memoryView [1, 2, 3])) =
        encode (pyBytesLikeToValue (.bytes [1, 2, 3])) ∧
      ∃ bs, encode (pyBytesLikeToValue (.bytes [1, 2, 3])) = .ok bs ∧
        decode bs = .ok (.bin [1, 2, 3])) ∧
    (encode (pySeqToValue (.tuple [.int 1])) = encode (pySeqToValue (.list [.int 1])) ∧
      ∃ bs, encode (pySeqToValue (.tuple [.int 1])) = .ok bs ∧
        decode bs = .ok (.arr [.int 1])) :=
  ⟨c8_bytes_like.1 [1, 2, 3] (by simp), c8_bytes_like.2 [.int 1] (by rfl)⟩

/-- C10: `Stream.encode` returns the same bytes as module-level `encode`
while appending them to the stream's buffer and leaving the read offset
alone, and `Stream.decode` of that return value yields the original
value. -/
theorem c10_stream : ∀ (s : MStream) (v : Value), validAt maxDepth v = true →
    ∃ bs s2, streamEncode s false v = .ok (bs, s2) ∧ encode v = .ok bs ∧
      s2.buf = s.buf ++ bs ∧ s2.roff = s.roff ∧
      streamDecodeBuf s2 emptyReg false bs = .ok v := by
  intro s v hv
  obtain ⟨bs, hE, hD⟩ := encode_decode hv
  have hE2 : encodeFull false v = .ok bs := hE
  refine ⟨bs, ⟨s.buf ++ bs, s.roff⟩, ?_, hE, rfl, rfl, hD⟩
  simp only [streamEncode, hE2]

/-- C10 witness: the claim applied to a fresh stream and the integer
42. -/
theorem c10_witness :
    ∃ bs s2, streamEncode ⟨[], 0⟩ false (.int 42) = .ok (bs, s2) ∧
      encode (.int 42) = .ok bs ∧ s2.buf = ([] : List ℕ) ++ bs ∧ s2.roff = 0 ∧
      streamDecodeBuf s2 emptyReg false bs = .ok (.int 42) :=
  c10_stream ⟨[], 0⟩ (.int 42) (by rfl)

/-- C9: a freshly opened `FileStream` with the default reading offset 0
decodes the first Value written to the file, whatever bytes other
handles appended after it, and advances its own offset by exactly that
Value's length. -/
theorem c9_filestream : ∀ (v : Value) (t : List ℕ), validAt maxDepth v = true →
    ∀ bs, encode v = .ok bs →
      fsDecode (bs ++ t) (fileStreamNew 0) emptyReg false =
        .ok (v, ⟨bs.length, 65536⟩) := by
  intro v t hv bs hE
  obtain ⟨bs2, hE2, hD⟩ := rt_main emptyReg false maxDepth v hv t
  rcases hD with hD | ⟨hsk, _⟩
  · have hbs : bs2 = bs := Except.ok.inj (hE2.symm.trans hE)
    rw [hbs] at hD
    simp only [fsDecode, fileStreamNew, List.drop_zero, hD]
    simp [List.length_append]
  · cases hsk

/-- C9 witness: the claim applied to the integer 123 of the test, with
the encoding of 456 appended to the file after it. -/
theorem c9_witness :
    fsDecode ([0x7b] ++ [0xcd, 0x01, 0xc8]) (fileStreamNew 0) emptyReg false =
      .ok (.int 123, ⟨[0x7b].length, 65536⟩) :=
  c9_filestream (.int 123) [0xcd, 0x01, 0xc8] (by rfl) [0x7b] rfl

theorem encG_active {g : Graph} {d : ℕ} {act : List ℕ} {i : ℕ} (h : i ∈ act) :
    encG g d act i = .error .recursionError := by
  cases d <;> rw [encG, if_pos h]

theorem graphOK_node {g : Graph} {i : ℕ} {n : GNode} (hg : graphOK g = true)
    (hl : glookup g i = some n) : gnodeOK g n = true := by
  rw [glookup] at hl
  cases hf : g.find? (fun p => p.1 == i) with
  | none => rw [hf] at hl; exact Option.noConfusion hl
  | some p =>
    rw [hf] at hl
    have hp : p ∈ g := List.mem_of_find?_eq_some hf
    have h2 : p.2 = n := Option.some.inj hl
    rw [graphOK, List.all_eq_true] at hg
    rw [← h2]
    exact hg p hp

theorem encGSeq_ok_elem (f : ℕ → Except Err (List ℕ)) :
    ∀ (l : List ℕ) (b : List ℕ), encGSeq f l = .ok b → ∀ x ∈ l, ∃ bx, f x = .ok bx := by
  intro l
  induction l with
  | nil => intro b _ x hx; exact absurd hx (List.not_mem_nil x)
  | cons i rest ih =>
    intro b hok x hx
    cases hfi : f i with
    | error e =>
      rw [encGSeq, hfi] at hok
      exact Except.noConfusion hok
    | ok bi =>
      rw [encGSeq, hfi, ok_bind] at hok
      cases hfr : encGSeq f rest with
      | error e =>
        rw [hfr] at hok
        exact Except.noConfusion hok
      | ok br =>
        rcases List.mem_cons.mp hx with hx1 | hx2
        · exact ⟨bi, hx1 ▸ hfi⟩
        · exact ih br hfr x hx2

theorem encGPairs_ok_elem (f : ℕ → Except Err (List ℕ)) :
    ∀ (l : List (ℕ × ℕ)) (b : List ℕ), encGPairs f l = .ok b →
      ∀ p ∈ l, (∃ b1, f p.1 = .ok b1) ∧ (∃ b2, f p.2 = .ok b2) := by
  intro l
  induction l with
  | nil => intro b _ p hp; exact absurd hp (List.not_mem_nil p)
  | cons q rest ih =>
    intro b hok p hp
    cases hf1 : f q.1 with
    | error e =>
      rw [encGPairs, hf1] at hok
      exact Except.noConfusion hok
    | ok b1 =>
      rw [encGPairs, hf1, ok_bind] at hok
      cases hf2 : f q.2 with
      | error e =>
        rw [hf2] at hok
        exact Except.noConfusion hok
      | ok b2 =>
        rw [hf2, ok_bind] at hok
        cases hfr : encGPairs f rest with
        | error e =>
          rw [hfr] at hok
          exact Except.noConfusion hok
        | ok br =>
          rcases List.mem_cons.mp hp with hp1 | hp2
          · exact hp1 ▸ ⟨⟨b1, hf1⟩, ⟨b2, hf2⟩⟩
          · exact ih br hfr p hp2

theorem gchildren_map_mem {j : ℕ} : ∀ ps : List (ℕ × ℕ),
    j ∈ gchildren (.map ps) → ∃ p ∈ ps, j = p.1 ∨ j = p.2 := by
  intro ps
  induction ps with
  | nil => intro h; exact absurd h (List.not_mem_nil j)
  | cons q rest ih =>
    intro h
    rw [gchildren, List.foldr_cons] at h
    rcases List.mem_cons.mp h with h1 | h2
    · exact ⟨q, List.mem_cons_self _ _, .inl h1⟩
    · rcases List.mem_cons.mp h2 with h3 | h4
      · exact ⟨q, List.mem_cons_self _ _, .inr h3⟩
      · obtain ⟨p, hp, hj⟩ := ih h4
        exact ⟨p, List.mem_cons_of_mem _ hp, hj⟩

theorem encG_succ_arr {g : Graph} {d : ℕ} {act : List ℕ} {i : ℕ} {cs : List ℕ}
    (h1 : i ∉ act) (h2 : glookup g i = some (.arr cs)) :
    encG g (d + 1) act i =
      (do
        let h ← arrHeader cs.length
        let body ← encGSeq (fun j => encG g d (i :: act) j) cs
        Except.ok (h ++ body)) := by
  rw [encG, if_neg h1]
  simp only [h2]

theorem encG_succ_map {g : Graph} {d : ℕ} {act : List ℕ} {i : ℕ} {ps : List (ℕ × ℕ)}
    (h1 : i ∉ act) (h2 : glookup g i = some (.map ps)) :
    encG g (d + 1) act i =
      (do
        let h ← mapHeader ps.length
        let body ← encGPairs (fun j => encG g d (i :: act) j) ps
        Except.ok (h ++ body)) := by
  rw [encG, if_neg h1]
  simp only [h2]

theorem encG_zero_arr {g : Graph} {act : List ℕ} {i : ℕ} {cs : List ℕ}
    (h1 : i ∉ act) (h2 : glookup g i = some (.arr cs)) :
    encG g 0 act i = .error .recursionError := by
  rw [encG, if_neg h1]
  simp only [h2]

theorem encG_zero_map {g : Graph} {act : List ℕ} {i : ℕ} {ps : List (ℕ × ℕ)}
    (h1 : i ∉ act) (h2 : glookup g i = some (.map ps)) :
    encG g 0 act i = .error .recursionError := by
  rw [encG, if_neg h1]
  simp only [h2]

theorem encG_edge_not_ok {g : Graph} {i j : ℕ} {n : GNode}
    (hln : glookup g i = some n) (hj : j ∈ gchildren n) (d : ℕ) (act : List ℕ)
    (hsub : ∀ (d2 : ℕ) (bs : List ℕ), encG g d2 (i :: act) j ≠ .ok bs) :
    ∀ bs, encG g d act i ≠ .ok bs := by
  intro bs hok
  by_cases hi : i ∈ act
  · rw [encG_active hi] at hok
    exact Except.noConfusion hok
  cases n with
  | arr cs =>
    cases d with
    | zero =>
      rw [encG_zero_arr hi hln] at hok
      exact Except.noConfusion hok
    | succ d' =>
      rw [encG_succ_arr hi hln] at hok
      cases hH : arrHeader cs.length with
      | error e =>
        rw [hH] at hok
        exact Except.noConfusion hok
      | ok hd =>
        rw [hH, ok_bind] at hok
        cases hS : encGSeq (fun j2 => encG g d' (i :: act) j2) cs with
        | error e =>
          rw [hS] at hok
          exact Except.noConfusion hok
        | ok body =>
          obtain ⟨bj, hbj⟩ := encGSeq_ok_elem _ cs body hS j hj
          exact hsub d' bj hbj
  | map ps =>
    cases d with
    | zero =>
      rw [encG_zero_map hi hln] at hok
      exact Except.noConfusion hok
    | succ d' =>
      rw [encG_succ_map hi hln] at hok
      cases hH : mapHeader ps.length with
      | error e =>
        rw [hH] at hok
        exact Except.noConfusion hok
      | ok hd =>
        rw [hH, ok_bind] at hok
        cases hS : encGPairs (fun j2 => encG g d' (i :: act) j2) ps with
        | error e =>
          rw [hS] at hok
          exact Except.noConfusion hok
        | ok body =>
          obtain ⟨p, hp, hjp⟩ := gchildren_map_mem ps hj
          obtain ⟨⟨b1, hb1⟩, ⟨b2, hb2⟩⟩ := encGPairs_ok_elem _ ps body hS p hp
          rcases hjp with hjp | hjp
          · exact hsub d' b1 (hjp ▸ hb1)
          · exact hsub d' b2 (hjp ▸ hb2)
  | nil => exact absurd hj (List.not_mem_nil j)
  | bool b => exact absurd hj (List.not_mem_nil j)
  | int v => exact absurd hj (List.not_mem_nil j)
  | float b => exact absurd hj (List.not_mem_nil j)
  | str st => exact absurd hj (List.not_mem_nil j)
  | bin b => exact absurd hj (List.not_mem_nil j)

theorem encG_path_not_ok (g : Graph) : ∀ {c a : ℕ}, GPath g c a →
    ∀ (d : ℕ) (act : List ℕ), a ∈ act → ∀ bs, encG g d act c ≠ .ok bs := by
  intro c a hpath
  induction hpath with
  | refl i =>
    intro d act ha bs hok
    rw [encG_active ha] at hok
    exact Except.noConfusion hok
  | step hedge hrest ih =>
    intro d act ha bs hok
    obtain ⟨n, hln, hj⟩ := hedge
    exact encG_edge_not_ok hln hj d act
      (fun d2 bs2 => ih d2 _ (List.mem_cons_of_mem _ ha) bs2) bs hok

theorem strHeader_ok {L : ℕ} (h : L ≤ 2 ^ 32 - 1) : ∃ hd, strHeader L = .ok hd := by
  unfold strHeader
  split_ifs <;> first | exact ⟨_, rfl⟩ | omega

theorem binHeader_ok {L : ℕ} (h : L ≤ 2 ^ 32 - 1) : ∃ hd, binHeader L = .ok hd := by
  unfold binHeader
  split_ifs <;> first | exact ⟨_, rfl⟩ | omega

theorem encG_nil {g : Graph} {d : ℕ} {act : List ℕ} {i : ℕ}
    (hi : i ∉ act) (hln : glookup g i = some .nil) : encG g d act i = .ok [0xc0] := by
  cases d <;> (rw [encG, if_neg hi]; simp only [hln])

theorem encG_bool {g : Graph} {d : ℕ} {act : List ℕ} {i : ℕ} {b : Bool}
    (hi : i ∉ act) (hln : glookup g i = some (.bool b)) :
    encG g d act i = .ok (if b then [0xc3] else [0xc2]) := by
  cases b <;> cases d <;> (rw [encG, if_neg hi]; simp only [hln]) <;> rfl

theorem encG_int {g : Graph} {d : ℕ} {act : List ℕ} {i : ℕ} {v : ℤ}
    (hi : i ∉ act) (hln : glookup g i = some (.int v)) : encG g d act i = encInt v := by
  cases d <;> (rw [encG, if_neg hi]; simp only [hln])

theorem encG_float {g : Graph} {d : ℕ} {act : List ℕ} {i : ℕ} {bits : ℕ}
    (hi : i ∉ act) (hln : glookup g i = some (.float bits)) :
    encG g d act i = .ok (0xcb :: beBytes 8 bits) := by
  cases d <;> (rw [encG, if_neg hi]; simp only [hln])

theorem encG_str {g : Graph} {d : ℕ} {act : List ℕ} {i : ℕ} {st : List ℕ}
    (hi : i ∉ act) (hln : glookup g i = some (.str st)) :
    encG g d act i =
      (do
        let h ← strHeader st.length
        Except.ok (h ++ st)) := by
  cases d <;> (rw [encG, if_neg hi]; simp only [hln])

theorem encG_bin {g : Graph} {d : ℕ} {act : List ℕ} {i : ℕ} {b : List ℕ}
    (hi : i ∉ act) (hln : glookup g i = some (.bin b)) :
    encG g d act i =
      (do
        let h ← binHeader b.length
        Except.ok (h ++ b)) := by
  cases d <;> (rw [encG, if_neg hi]; simp only [hln])

theorem gseq_ok_or (f : ℕ → Except Err (List ℕ)) :
    ∀ l : List ℕ, (∀ x ∈ l, (∃ bs, f x = .ok bs) ∨ f x = .error .recursionError) →
      (∃ bs, encGSeq f l = .ok bs) ∨ encGSeq f l = .error .recursionError := by
  intro l
  induction l with
  | nil => intro _; exact .inl ⟨[], rfl⟩
  | cons x rest ih =>
    intro h
    rcases h x (List.mem_cons_self _ _) with ⟨bx, hbx⟩ | hbx
    · rcases ih (fun y hy => h y (List.mem_cons_of_mem _ hy)) with ⟨br, hbr⟩ | hbr
      · exact .inl ⟨bx ++ br, by rw [encGSeq, hbx, ok_bind, hbr, ok_bind]⟩
      · refine .inr ?_
        rw [encGSeq, hbx, ok_bind, hbr]
        rfl
    · refine .inr ?_
      rw [encGSeq, hbx]
      rfl

theorem gpairs_ok_or (f : ℕ → Except Err (List ℕ)) :
    ∀ l : List (ℕ × ℕ),
      (∀ p ∈ l, ((∃ bs, f p.1 = .ok bs) ∨ f p.1 = .error .recursionError) ∧
        ((∃ bs, f p.2 = .ok bs) ∨ f p.2 = .error .recursionError)) →
      (∃ bs, encGPairs f l = .ok bs) ∨ encGPairs f l = .error .recursionError := by
  intro l
  induction l with
  | nil => intro _; exact .inl ⟨[], rfl⟩
  | cons p rest ih =>
    intro h
    have hp := h p (List.mem_cons_self _ _)
    rcases hp.1 with ⟨b1, hb1⟩ | hb1
    · rcases hp.2 with ⟨b2, hb2⟩ | hb2
      · rcases ih (fun y hy => h y (List.mem_cons_of_mem _ hy)) with ⟨br, hbr⟩ | hbr
        · exact .inl ⟨b1 ++ b2 ++ br, by rw [encGPairs, hb1, ok_bind, hb2, ok_bind, hbr, ok_bind]⟩
        · refine .inr ?_
          rw [encGPairs, hb1, ok_bind, hb2, ok_bind, hbr]
          rfl
      · refine .inr ?_
        rw [encGPairs, hb1, ok_bind, hb2]
        rfl
    · refine .inr ?_
      rw [encGPairs, hb1]
      rfl

theorem encG_scalar_cases {g : Graph} {i : ℕ} {n : GNode}
    (hln : glookup g i = some n) (d : ℕ) (act : List ℕ) (hi : i ∉ act)
    (hscal : isGScalar n = true) (hnode : gnodeOK g n = true) :
    ∃ bs, encG g d act i = .ok bs := by
  cases n with
  | nil => exact ⟨[0xc0], encG_nil hi hln⟩
  | bool b => exact ⟨if b then [0xc3] else [0xc2], encG_bool hi hln⟩
  | int v =>
    rw [gnodeOK, decide_eq_true_eq] at hnode
    obtain ⟨bs, hE, _⟩ := @rt_int emptyReg false none v hnode []
    exact ⟨bs, by rw [encG_int hi hln]; exact hE⟩
  | float bits => exact ⟨0xcb :: beBytes 8 bits, encG_float hi hln⟩
  | str st =>
    rw [gnodeOK, decide_eq_true_eq] at hnode
    obtain ⟨hd, hHd⟩ := strHeader_ok hnode
    exact ⟨hd ++ st, by rw [encG_str hi hln, hHd, ok_bind]⟩
  | bin b =>
    rw [gnodeOK, decide_eq_true_eq] at hnode
    obtain ⟨hd, hHd⟩ := binHeader_ok hnode
    exact ⟨hd ++ b, by rw [encG_bin hi hln, hHd, ok_bind]⟩
  | arr cs => simp [isGScalar] at hscal
  | map ps => simp [isGScalar] at hscal

theorem encG_ok_or_rec {g : Graph} (hg : graphOK g = true) :
    ∀ (d : ℕ) (act : List ℕ) (i : ℕ), (glookup g i).isSome = true →
      (∃ bs, encG g d act i = .ok bs) ∨ encG g d act i = .error .recursionError := by
  intro d
  induction d with
  | zero =>
    intro act i hsome
    by_cases hi : i ∈ act
    · exact .inr (encG_active hi)
    cases hln : glookup g i with
    | none => rw [hln] at hsome; simp at hsome
    | some n =>
      have hnode := graphOK_node hg hln
      cases n with
      | arr cs => exact .inr (encG_zero_arr hi hln)
      | map ps => exact .inr (encG_zero_map hi hln)
      | nil => exact .inl (encG_scalar_cases hln 0 act hi rfl hnode)
      | bool b => exact .inl (encG_scalar_cases hln 0 act hi rfl hnode)
      | int v => exact .inl (encG_scalar_cases hln 0 act hi rfl hnode)
      | float bits => exact .inl (encG_scalar_cases hln 0 act hi rfl hnode)
      | str st => exact .inl (encG_scalar_cases hln 0 act hi rfl hnode)
      | bin b => exact .inl (encG_scalar_cases hln 0 act hi rfl hnode)
  | succ d ih =>
    intro act i hsome
    by_cases hi : i ∈ act
    · exact .inr (encG_active hi)
    cases hln : glookup g i with
    | none => rw [hln] at hsome; simp at hsome
    | some n =>
      have hnode := graphOK_node hg hln
      cases n with
      | arr cs =>
        rw [gnodeOK, Bool.and_eq_true, decide_eq_true_eq, List.all_eq_true] at hnode
        obtain ⟨hd, hHd⟩ := arrHeader_ok hnode.1
        rcases gseq_ok_or _ cs (fun x hx => ih (i :: act) x (hnode.2 x hx)) with
          ⟨body, hB⟩ | hB
        · exact .inl ⟨hd ++ body, by rw [encG_succ_arr hi hln, hHd, ok_bind, hB, ok_bind]⟩
        · refine .inr ?_
          rw [encG_succ_arr hi hln, hHd, ok_bind, hB]
          rfl
      | map ps =>
        rw [gnodeOK, Bool.and_eq_true, decide_eq_true_eq, List.all_eq_true] at hnode
        obtain ⟨hd, hHd⟩ := mapHeader_ok hnode.1
        have hch : ∀ p ∈ ps,
            ((∃ bs, encG g d (i :: act) p.1 = .ok bs) ∨
              encG g d (i :: act) p.1 = .error .recursionError) ∧
            ((∃ bs, encG g d (i :: act) p.2 = .ok bs) ∨
              encG g d (i :: act) p.2 = .error .recursionError) := by
          intro p hp
          have h2 := hnode.2 p hp
          rw [Bool.and_eq_true] at h2
          exact ⟨ih (i :: act) p.1 h2.1, ih (i :: act) p.2 h2.2⟩
        rcases gpairs_ok_or _ ps hch with ⟨body, hB⟩ | hB
        · exact .inl ⟨hd ++ body, by rw [encG_succ_map hi hln, hHd, ok_bind, hB, ok_bind]⟩
        · refine .inr ?_
          rw [encG_succ_map hi hln, hHd, ok_bind, hB]
          rfl
      | nil => exact .inl (encG_scalar_cases hln (d + 1) act hi rfl hnode)
      | bool b => exact .inl (encG_scalar_cases hln (d + 1) act hi rfl hnode)
      | int v => exact .inl (encG_scalar_cases hln (d + 1) act hi rfl hnode)
      | float bits => exact .inl (encG_scalar_cases hln (d + 1) act hi rfl hnode)
      | str st => exact .inl (encG_scalar_cases hln (d + 1) act hi rfl hnode)
      | bin b => exact .inl (encG_scalar_cases hln (d + 1) act hi rfl hnode)

/-- C7 (amended): the encoder over a host value graph rejects cycles —
for every well-formed graph (scalars in range, length fields within 32
bits, all references present) whose root transitively contains itself,
encode fails with RecursionError; no bytes are produced, the call
returns only the error. -/
theorem c7_cycle : ∀ (g : Graph) (root c : ℕ), graphOK g = true →
    GEdge g root c → GPath g c root → encGFull g root = .error .recursionError := by
  intro g root c hg hedge hpath
  obtain ⟨n, hln, hc⟩ := hedge
  have hsome : (glookup g root).isSome = true := by rw [hln]; rfl
  rcases encG_ok_or_rec hg maxDepth [] root hsome with ⟨bs, hok⟩ | hrec
  · exact absurd hok (encG_edge_not_ok hln hc maxDepth []
      (fun d2 bs2 => encG_path_not_ok g hpath d2 [root] (List.mem_singleton_self root) bs2) bs)
  · exact hrec

/-- C7 counterexample: the claim as stated promises RecursionError for
every self-containing container, but a cyclic array whose first element
is the integer 2^100 fails with OverflowError before the cycle is
reached, so the error kind is not RecursionError. -/
theorem c7_counterexample :
    GEdge [(0, GNode.arr [1, 0]), (1, GNode.int (2 ^ 100))] 0 0 ∧
    GPath [(0, GNode.arr [1, 0]), (1, GNode.int (2 ^ 100))] 0 0 ∧
    encGFull [(0, GNode.arr [1, 0]), (1, GNode.int (2 ^ 100))] 0 = .error .overflowError ∧
    encGFull [(0, GNode.arr [1, 0]), (1, GNode.int (2 ^ 100))] 0 ≠
      .error .recursionError := by
  refine ⟨⟨.arr [1, 0], rfl, by simp [gchildren]⟩, GPath.refl 0, rfl, ?_⟩
  intro h
  rw [show encGFull [(0, GNode.arr [1, 0]), (1, GNode.int (2 ^ 100))] 0 =
    .error .overflowError from rfl] at h
  exact Err.noConfusion (Except.error.inj h)

/-- C7 witness: the amended claim applied to the one-node graph of the
tests' `cyclic_ref`, a list whose sole element is itself. -/
theorem c7_witness :
    graphOK [(0, GNode.arr [0])] = true ∧
    encGFull [(0, GNode.arr [0])] 0 = .error .recursionError :=
  ⟨rfl, c7_cycle [(0, GNode.arr [0])] 0 0 rfl
    ⟨.arr [0], rfl, List.mem_singleton_self 0⟩ (GPath.refl 0)⟩

end Cmsgpack
